import Mathlib

/-!
# A shallow embedding of the `mu_db` storage engine

This file models the Rust sources of the `mu_db` repository (`src/lib.rs`):

* `IndexEntry`, `Index` — the directory: an ordered in-memory catalog of
  `key → byte range` mappings, together with the persisted textual index file.
* `DataBase` — the store facade: the flat data file plus its directory.

Modelling conventions:

* Rust `usize` offsets/sizes are `Nat`.  The subtractions performed by the
  source (`next.range.start - curr.range.end`, the shifts in `shrink_entries`)
  never underflow when the index ordering invariant holds, which is the regime
  every theorem below works in; there `Nat` truncated subtraction agrees with
  Rust unsigned subtraction.
* Rust `&str` keys are `List Char`; the byte payload of a value and of the data
  file are `List Nat` (one `Nat` per byte).  `String::from_utf8_lossy` is the
  identity on the exact bytes previously written from a `&str`, so `get`
  returning the written bytes models `get` returning the written string.
* File handles are replaced by the file contents they reach: the data file is
  `DataBase.buf`, the persisted index file is `Index.file`.  `BufReader::seek`
  discards the read buffer, and `write_at` flushes, so plain byte-list
  semantics is faithful.
* A Rust `panic!`/`unwrap` on a fallible step that can actually fail in the
  model (a failing `read_exact`, a malformed index line) is modelled by
  `Option`/`none`; genuine I/O faults are modelled separately by the
  fault-injecting `…E` variants further down.
-/

set_option linter.unusedVariables false

namespace MuDb

/-- Keys are Rust `&str` values, modelled as their character sequences. -/
abbrev Key := List Char

/-- One byte of the data file (a `Nat`; byte-ness is irrelevant to the claims). -/
abbrev Byte := Nat

/-- Rust `Range<usize>`: the half-open interval `[start, stop)`.
`stop` is Rust's `end` field (`end` is a Lean keyword). -/
structure RangeN where
  start : Nat
  stop : Nat
deriving DecidableEq

/-- `IndexEntry { key: String, range: Range<usize> }` from `src/lib.rs`. -/
structure IndexEntry where
  key : Key
  range : RangeN
deriving DecidableEq

/-- `IndexEntry::size`: `self.range.end - self.range.start`. -/
def IndexEntry.size (e : IndexEntry) : Nat := e.range.stop - e.range.start

/-- `Index { entries: Vec<IndexEntry>, writer: BufWriter<File> }`:
the in-memory entry sequence plus the content of the persisted index file
(the target of its writer). -/
structure Index where
  entries : List IndexEntry
  file : List Char
deriving DecidableEq

/-! ## Serialization (`index_to_string` / `parse_index`) -/

/-- One decimal digit character, as produced by `usize::to_string`. -/
def digitChar : Nat → Char
  | 0 => '0' | 1 => '1' | 2 => '2' | 3 => '3' | 4 => '4'
  | 5 => '5' | 6 => '6' | 7 => '7' | 8 => '8' | _ => '9'

/-- Structural worker for `natChars`; the fuel argument only makes the
recursion structural (any fuel > n computes the digits of `n`). -/
def natCharsAux : Nat → Nat → List Char
  | 0, _ => []
  | fuel + 1, n =>
    if n < 10 then [digitChar n]
    else natCharsAux fuel (n / 10) ++ [digitChar (n % 10)]

/-- The decimal rendering of a `usize` (`n.to_string()` in the source). -/
def natChars (n : Nat) : List Char := natCharsAux (n + 1) n

/-- One line of the index file: `key=start_end\n`
(`index_to_string` pushes the key, `'='`, `start.to_string()`, `"_"`,
`end.to_string()`, `'\n'`). -/
def entryLine (e : IndexEntry) : List Char :=
  e.key ++ '=' :: (natChars e.range.start ++ '_' :: (natChars e.range.stop ++ ['\n']))

/-- `Index::index_to_string`: the concatenation of the entries' lines, in order. -/
def index_to_string (entries : List IndexEntry) : List Char :=
  entries.foldr (fun e acc => entryLine e ++ acc) []

/-- Rust `str::split` with a single-character pattern. -/
def splitOnChar (c : Char) : List Char → List (List Char)
  | [] => [[]]
  | x :: xs =>
    if x = c then [] :: splitOnChar c xs
    else
      match splitOnChar c xs with
      | [] => [[x]]
      | y :: ys => (x :: y) :: ys

/-- The whitespace test used by Rust `str::trim_end` (restricted to the ASCII
whitespace that can occur here; the index file's last character before the
trailing newline is always a decimal digit). -/
def isWsp (c : Char) : Bool := c = ' ' || c = '\t' || c = '\n' || c = '\r'

/-- Rust `str::trim_end`. -/
def trimEnd (cs : List Char) : List Char := (cs.reverse.dropWhile isWsp).reverse

/-- ASCII decimal digit test. -/
def isDigitC (c : Char) : Bool := 48 ≤ c.toNat && c.toNat ≤ 57

/-- Rust `str::parse::<usize>()` on the strings occurring in an index file:
all-digit, non-empty input parses to its decimal value, anything else is a
parse error (`none`; the source unwraps it, i.e. panics).  `usize` is modelled
as unbounded, so overflow is not a failure mode here. -/
def parseNat (cs : List Char) : Option Nat :=
  if cs ≠ [] ∧ cs.all isDigitC then
    some (cs.foldl (fun a c => a * 10 + (c.toNat - 48)) 0)
  else none

/-- One line of `parse_index`'s closure: split on `'='`, take pieces 0 and 1,
split piece 1 on `'_'`, parse both halves as `usize`.  A missing piece or a
failed parse is a panic in the source (`none` here). -/
def parseLine (line : List Char) : Option IndexEntry :=
  match splitOnChar '=' line with
  | k :: r :: _ =>
    (match splitOnChar '_' r with
     | a :: b :: _ =>
       (match parseNat a, parseNat b with
        | some s, some e => some ⟨k, ⟨s, e⟩⟩
        | _, _ => none)
     | _ => none)
  | _ => none

/-- The `map`-and-`collect` of `parse_index`: a panic on any line aborts the
whole parse. -/
def parseLines : List (List Char) → Option (List IndexEntry)
  | [] => some []
  | line :: rest =>
    match parseLine line, parseLines rest with
    | some e, some es => some (e :: es)
    | _, _ => none

/-- `Index::parse_index`: the empty file is the empty directory; otherwise
`trim_end`, split on newline, parse each line. -/
def parse_index (file : List Char) : Option (List IndexEntry) :=
  if file = [] then some []
  else parseLines (splitOnChar '\n' (trimEnd file))

/-! ## Index operations -/

/-- `Index::write_index`: truncate the index file and rewrite it from the
in-memory entries. -/
def Index.write_index (idx : Index) : Index :=
  { idx with file := index_to_string idx.entries }

/-- The scan at the top of `insert_entry` / `remove_entry`: the first index
`i` (with its entry) whose key equals `key`. -/
def findKey (key : Key) : List IndexEntry → Option (Nat × IndexEntry)
  | [] => none
  | e :: rest =>
    if e.key = key then some (0, e)
    else
      match findKey key rest with
      | some (i, f) => some (i + 1, f)
      | none => none

/-- `Index::get_entry`: first entry with the given key. -/
def Index.get_entry (idx : Index) (key : Key) : Option IndexEntry :=
  idx.entries.find? (fun e => e.key = key)

/-- The adjacent-pair loop of `alloc_entry`: for the first pair whose gap
`next.range.start - curr.range.end` is at least `entry_size`, insert a new
entry at `[curr.end, curr.end + entry_size)` right after `curr`; `none` if no
interior gap fits. -/
def scanGaps (key : Key) (entry_size : Nat) : List IndexEntry → Option (IndexEntry × List IndexEntry)
  | a :: b :: rest =>
    if entry_size ≤ b.range.start - a.range.stop then
      let e : IndexEntry := ⟨key, ⟨a.range.stop, a.range.stop + entry_size⟩⟩
      some (e, a :: e :: b :: rest)
    else
      match scanGaps key entry_size (b :: rest) with
      | some (e, l) => some (e, a :: l)
      | none => none
  | _ => none

/-- The fall-through of `alloc_entry`: append at `[last.end, last.end + size)`,
or `[0, size)` on an empty index. -/
def appendEntry (idx : Index) (entry_size : Nat) (key : Key) : IndexEntry × Index :=
  let range_start :=
    match idx.entries.getLast? with
    | some e => e.range.stop
    | none => 0
  let e : IndexEntry := ⟨key, ⟨range_start, range_start + entry_size⟩⟩
  (e, Index.write_index { idx with entries := idx.entries ++ [e] })

/-- `Index::alloc_entry`: first-fit allocation over the gaps implied by the
ordered entry sequence. -/
def Index.alloc_entry (idx : Index) (entry_size : Nat) (key : Key) : IndexEntry × Index :=
  match idx.entries with
  | [] => appendEntry idx entry_size key
  | e0 :: rest =>
    if entry_size ≤ e0.range.start then
      let e : IndexEntry := ⟨key, ⟨0, entry_size⟩⟩
      (e, Index.write_index { idx with entries := e :: e0 :: rest })
    else
      match scanGaps key entry_size (e0 :: rest) with
      | some (e, l) => (e, Index.write_index { idx with entries := l })
      | none => appendEntry idx entry_size key

/-- `Index::insert_entry`: update-or-allocate.  An existing entry is replaced
in place when the new size fits, otherwise removed and reallocated. -/
def Index.insert_entry (idx : Index) (entry_size : Nat) (key : Key) : IndexEntry × Index :=
  match findKey key idx.entries with
  | some (i, old) =>
    if old.size < entry_size then
      Index.alloc_entry { idx with entries := idx.entries.eraseIdx i } entry_size key
    else
      let e : IndexEntry := ⟨key, ⟨old.range.start, old.range.start + entry_size⟩⟩
      (e, Index.write_index { idx with entries := idx.entries.set i e })
  | none => Index.alloc_entry idx entry_size key

/-- `Index::remove_entry`: remove the first entry with the given key and
persist; an absent key returns `None` without touching anything. -/
def Index.remove_entry (idx : Index) (key : Key) : Option IndexEntry × Index :=
  match findKey key idx.entries with
  | some (i, e) => (some e, Index.write_index { idx with entries := idx.entries.eraseIdx i })
  | none => (none, idx)

/-- `Index::clear_all`: clear the entries and truncate the index file. -/
def Index.clear_all (idx : Index) : Index := { entries := [], file := [] }

/-- The body of `shrink_entries` (the first-entry shift and the adjacent-pair
loop): each entry is shifted left so it starts at the running previous end.
`prevEnd` is `0` initially, matching the first-entry special case. -/
def shrinkFrom (prevEnd : Nat) : List IndexEntry → List IndexEntry
  | [] => []
  | e :: rest =>
    let diff := e.range.start - prevEnd
    let e' : IndexEntry :=
      if diff ≠ 0 then ⟨e.key, ⟨e.range.start - diff, e.range.stop - diff⟩⟩ else e
    e' :: shrinkFrom e'.range.stop rest

/-- `Index::shrink_entries`: returns the pre-image entries and slides the
in-memory entries toward offset 0, then persists.  An empty index returns
early without persisting. -/
def Index.shrink_entries (idx : Index) : List IndexEntry × Index :=
  let old := idx.entries
  if old.isEmpty then (old, idx)
  else (old, Index.write_index { idx with entries := shrinkFrom 0 idx.entries })

/-! ## DataBase operations -/

/-- `DataBase { index, reader, writer }`: the directory plus the data file's
bytes (both handles reach the same file). -/
structure DataBase where
  index : Index
  buf : List Byte
deriving DecidableEq

/-- `DataBase::write_at`: seek the writer to `start` (zero-filling if `start`
is beyond the current end, the documented file-system behaviour) and write all
bytes of `content`. -/
def DataBase.write_at (db : DataBase) (start : Nat) (content : List Byte) : DataBase :=
  { db with
    buf := db.buf.take start ++ List.replicate (start - db.buf.length) 0
           ++ content ++ db.buf.drop (start + content.length) }

/-- `DataBase::read_at`: read exactly `size` bytes at `start`; `read_exact`
fails (an I/O error, `none`) when fewer than `size` bytes exist past `start`
(a zero-sized read always succeeds). -/
def DataBase.read_at (db : DataBase) (start size : Nat) : Option (List Byte) :=
  if size ≤ db.buf.length - start then some ((db.buf.drop start).take size) else none

/-- `DataBase::set_buf_len`: truncate or zero-extend the data file to `len`. -/
def DataBase.set_buf_len (db : DataBase) (len : Nat) : DataBase :=
  { db with buf := db.buf.take len ++ List.replicate (len - db.buf.length) 0 }

/-- `DataBase::buf_len`: the data file's physical length. -/
def DataBase.buf_len (db : DataBase) : Nat := db.buf.length

/-- `DataBase::is_empty`. -/
def DataBase.is_empty (db : DataBase) : Bool := db.index.entries.isEmpty

/-- `DataBase::is_buf_empty`. -/
def DataBase.is_buf_empty (db : DataBase) : Bool := db.buf.length = 0

/-- `DataBase::insert`: allocate/update the directory entry for `key` with the
value's byte length, then write the value at the returned range's start. -/
def DataBase.insert (db : DataBase) (key : Key) (value : List Byte) : DataBase :=
  let p := db.index.insert_entry value.length key
  DataBase.write_at { db with index := p.2 } p.1.range.start value

/-- `DataBase::get`: look the key up and read its range.  The source unwraps
the read; for an in-bounds entry the read always succeeds, so `none` here
covers both "absent key" and the (invariant-excluded) read panic. -/
def DataBase.get (db : DataBase) (key : Key) : Option (List Byte) :=
  match db.index.get_entry key with
  | some e => db.read_at e.range.start e.size
  | none => none

/-- `DataBase::remove`: a pure directory operation. -/
def DataBase.remove (db : DataBase) (key : Key) : DataBase :=
  { db with index := (db.index.remove_entry key).2 }

/-- `DataBase::clear_all`: truncate the data file to 0 and clear the directory. -/
def DataBase.clear_all (db : DataBase) : DataBase :=
  let d := db.set_buf_len 0
  { d with index := d.index.clear_all }

/-- The relocation loop of `DataBase::shrink`, over `zip(old, new)` pairs: for
every pair whose start moved, read the live bytes at the old range and write
them at the new range.  A failing read is unwrapped in the source (`none`). -/
def copyEntries (db : DataBase) : List (IndexEntry × IndexEntry) → Option DataBase
  | [] => some db
  | (old, new) :: rest =>
    if old.range.start ≠ new.range.start then
      match db.read_at old.range.start old.size with
      | some s => copyEntries (db.write_at new.range.start s) rest
      | none => none
    else copyEntries db rest

/-- `DataBase::shrink`: on an empty directory defer to `clear_all`; otherwise
compact the directory, relocate the moved ranges, and truncate the file to the
new last entry's end.  `none` models the source's unwrap panics. -/
def DataBase.shrink (db : DataBase) : Option DataBase :=
  if db.index.entries.isEmpty then some db.clear_all
  else
    let p := db.index.shrink_entries
    let db1 : DataBase := { db with index := p.2 }
    match copyEntries db1 (p.1.zip p.2.entries) with
    | some db2 =>
      match p.2.entries.getLast? with
      | some lastE => some (db2.set_buf_len lastE.range.stop)
      | none => none
    | none => none

/-! ## Fault-injecting variants (error-handling model)

The Rust operations perform real file I/O.  To reason about the error
*handling* of each public operation we re-run the same code under an injected
fault: `fault = true` means every physical file access attempted during the
operation fails with an I/O error.  The outcome records whether the operation
returned the error to its caller (`err`, Rust `Err(..)` via `?`) or terminated
the process (`fatal`, Rust `.unwrap()` on an `Err`). -/

/-- Outcome of one Store/Index operation under fault injection. -/
inductive OpOutcome (α : Type) where
  | ok (a : α)
  | err
  | fatal
deriving DecidableEq

/-- `DataBase::write_at` under fault injection: its seek/write/flush errors are
returned to the caller with `?`. -/
def DataBase.write_atE (fault : Bool) (db : DataBase) (start : Nat) (content : List Byte) :
    OpOutcome DataBase :=
  if fault then .err else .ok (db.write_at start content)

/-- `DataBase::read_at` under fault injection: seek/`read_exact` errors
(including reading past end-of-file) are returned to the caller with `?`. -/
def DataBase.read_atE (fault : Bool) (db : DataBase) (start size : Nat) :
    OpOutcome (List Byte) :=
  if fault then .err
  else
    match db.read_at start size with
    | some s => .ok s
    | none => .err

/-- `Index::write_index` under fault injection: every file access in it
(`seek`, `set_len`, `write_all`) is `.unwrap()`ed, so a fault terminates. -/
def Index.write_indexE (fault : Bool) (idx : Index) : OpOutcome Index :=
  if fault then .fatal else .ok idx.write_index

/-- `Index::insert_entry` under fault injection: every branch ends in
`write_index` (directly or through `alloc_entry`), whose failures are fatal. -/
def Index.insert_entryE (fault : Bool) (idx : Index) (entry_size : Nat) (key : Key) :
    OpOutcome (IndexEntry × Index) :=
  if fault then .fatal else .ok (idx.insert_entry entry_size key)

/-- `Index::remove_entry` under fault injection: `write_index` runs (and its
failure is fatal) only when the key is found; an absent key touches no file. -/
def Index.remove_entryE (fault : Bool) (idx : Index) (key : Key) :
    OpOutcome (Option IndexEntry × Index) :=
  match findKey key idx.entries with
  | some _ => if fault then .fatal else .ok (idx.remove_entry key)
  | none => .ok (idx.remove_entry key)

/-- `DataBase::insert` under fault injection: `insert_entry`'s persistence is
fatal on fault, and the subsequent `write_at(..)` result is `.unwrap()`ed. -/
def DataBase.insertE (fault : Bool) (db : DataBase) (key : Key) (value : List Byte) :
    OpOutcome DataBase :=
  match db.index.insert_entryE fault value.length key with
  | .ok p =>
    (match DataBase.write_atE fault { db with index := p.2 } p.1.range.start value with
     | .ok d => .ok d
     | _ => .fatal)
  | .err => .err
  | .fatal => .fatal

/-- `DataBase::get` under fault injection: an absent key performs no file
access; for a present key the `read_at(..)` result is `.unwrap()`ed. -/
def DataBase.getE (fault : Bool) (db : DataBase) (key : Key) :
    OpOutcome (Option (List Byte)) :=
  match db.index.get_entry key with
  | some e =>
    (match DataBase.read_atE fault db e.range.start e.size with
     | .ok s => .ok (some s)
     | _ => .fatal)
  | none => .ok none

/-- `DataBase::remove` under fault injection: delegates to `remove_entry`. -/
def DataBase.removeE (fault : Bool) (db : DataBase) (key : Key) : OpOutcome DataBase :=
  match db.index.remove_entryE fault key with
  | .ok p => .ok { db with index := p.2 }
  | .err => .err
  | .fatal => .fatal

/-- `DataBase::clear_all` under fault injection: `set_buf_len` (seeks and
`set_len` on both handles) and `Index::clear_all` (`set_len` on the index
file) `.unwrap()` every file access, so a fault terminates before the
`Ok(())` is reached. -/
def DataBase.clear_allE (fault : Bool) (db : DataBase) : OpOutcome DataBase :=
  if fault then .fatal else .ok db.clear_all

/-- `DataBase::shrink` under fault injection: both branches start with a
file access whose failure is `.unwrap()`ed (`set_buf_len` inside `clear_all`,
or `write_index` inside `shrink_entries`), and the relocation loop unwraps its
reads and writes. -/
def DataBase.shrinkE (fault : Bool) (db : DataBase) : OpOutcome DataBase :=
  if fault then .fatal
  else
    match db.shrink with
    | some d => .ok d
    | none => .fatal

/-! ## Invariants -/

/-- A well-formed half-open range: `start ≤ stop`.  Every range the code
itself constructs has this shape. -/
def entryWF (e : IndexEntry) : Prop := e.range.start ≤ e.range.stop

instance (e : IndexEntry) : Decidable (entryWF e) :=
  inferInstanceAs (Decidable (_ ≤ _))

/-- Adjacency order on entries: `a`'s range ends no later than `b`'s begins.
Together with `entryWF` this yields pairwise disjointness and ascending
starts — the invariants §3 of the spec states for the directory. -/
def chainLE (a b : IndexEntry) : Prop := a.range.stop ≤ b.range.start

instance (a b : IndexEntry) : Decidable (chainLE a b) :=
  inferInstanceAs (Decidable (_ ≤ _))

/-- The directory invariant: unique keys, entries pairwise in byte order,
well-formed ranges. -/
def Inv (l : List IndexEntry) : Prop :=
  (l.map IndexEntry.key).Nodup ∧ l.Pairwise chainLE ∧ ∀ e ∈ l, entryWF e

instance (l : List IndexEntry) : Decidable (Inv l) :=
  inferInstanceAs (Decidable (_ ∧ _ ∧ _))

/-- The store invariant: directory invariant plus every entry's range lying
inside the data file. -/
def DBWF (db : DataBase) : Prop :=
  Inv db.index.entries ∧ ∀ e ∈ db.index.entries, e.range.stop ≤ db.buf.length

instance (db : DataBase) : Decidable (DBWF db) :=
  inferInstanceAs (Decidable (_ ∧ _))

/-- `[s, s+n)` is free: it overlaps no entry of `l`.  First-fit allocation
returns the least free start (for the requested size). -/
def Free (l : List IndexEntry) (s n : Nat) : Prop :=
  ∀ e ∈ l, e.range.stop ≤ s ∨ s + n ≤ e.range.start

instance (l : List IndexEntry) (s n : Nat) : Decidable (Free l s n) :=
  inferInstanceAs (Decidable (∀ e ∈ l, _ ∨ _))

/-- A fully compacted (gap-free) entry sequence starting at `p`: the first
entry starts at `p` and each entry starts where its predecessor ends. -/
def Contig : Nat → List IndexEntry → Prop
  | _, [] => True
  | p, e :: rest => e.range.start = p ∧ Contig e.range.stop rest

instance instDecContig : (p : Nat) → (l : List IndexEntry) → Decidable (Contig p l)
  | _, [] => isTrue trivial
  | p, e :: rest =>
    have : Decidable (Contig e.range.stop rest) := instDecContig _ _
    inferInstanceAs (Decidable (_ ∧ _))

/-- The per-entry relation between a compacted entry and its pre-image:
same key, moved left, and the new range spans exactly the old size. -/
def entryRel (n o : IndexEntry) : Prop :=
  n.key = o.key ∧ n.range.start ≤ o.range.start ∧ n.range.stop ≤ o.range.stop ∧
    n.range.stop = n.range.start + o.size

/-- The `size` bytes of `b` starting at offset `s`. -/
def slice (b : List Byte) (s n : Nat) : List Byte := (b.drop s).take n

/-- The part of an entry's line before the trailing newline:
`key=start_end`.  `entryLine e = entryBody e ++ ['\n']` (proved below); this
re-grouping drives the round-trip proof. -/
def entryBody (e : IndexEntry) : List Char :=
  e.key ++ '=' :: (natChars e.range.start ++ '_' :: natChars e.range.stop)

/-- The serialized index with a newline between (not after) the lines:
`index_to_string l = interBody l ++ ['\n']` for non-empty `l` (proved below),
which is exactly what `trim_end` reduces the file to before splitting. -/
def interBody : List IndexEntry → List Char
  | [] => []
  | [e] => entryBody e
  | e :: r :: t => entryBody e ++ '\n' :: interBody (r :: t)

/-! ## Concrete fixtures used by the witness theorems -/

/-- A live entry `a ↦ [0, 2)`. -/
def entA : IndexEntry := ⟨['a'], ⟨0, 2⟩⟩

/-- A live entry `b ↦ [5, 7)` (leaving the gap `[2, 5)` before it). -/
def entB : IndexEntry := ⟨['b'], ⟨5, 7⟩⟩

/-- A small fragmented index. -/
def idxW : Index := ⟨[entA, entB], []⟩

/-- A small fragmented store over a 7-byte data file. -/
def dbW : DataBase := ⟨idxW, [10, 11, 12, 13, 14, 15, 16]⟩

/-- The result of shrinking `dbW`. -/
def dbWs : DataBase := dbW.shrink.getD dbW

/-! ## Buffer lemmas -/

theorem write_at_buf (db : DataBase) (s : Nat) (c : List Byte) :
    (db.write_at s c).buf
      = (db.buf.take s ++ List.replicate (s - db.buf.length) 0)
        ++ (c ++ db.buf.drop (s + c.length)) := by
  simp [DataBase.write_at]

theorem write_at_prefix_length (db : DataBase) (s : Nat) :
    (db.buf.take s ++ List.replicate (s - db.buf.length) 0).length = s := by
  simp
  omega

theorem write_at_index (db : DataBase) (s : Nat) (c : List Byte) :
    (db.write_at s c).index = db.index := by
  simp [DataBase.write_at]

theorem write_at_buf_length (db : DataBase) (s : Nat) (c : List Byte) :
    (db.write_at s c).buf.length = max db.buf.length (s + c.length) := by
  rw [write_at_buf]
  simp
  omega

theorem slice_length (b : List Byte) (s n : Nat) :
    (slice b s n).length = min n (b.length - s) := by
  simp [slice]

theorem slice_getElem? (b : List Byte) (s n j : Nat) :
    (slice b s n)[j]? = if j < n then b[s + j]? else none := by
  simp [slice, List.getElem?_take, List.getElem?_drop]

theorem slice_congr {b1 b2 : List Byte} {s n : Nat}
    (h : ∀ j, s ≤ j → j < s + n → b1[j]? = b2[j]?) :
    slice b1 s n = slice b2 s n := by
  apply List.ext_getElem?
  intro m
  rw [slice_getElem?, slice_getElem?]
  split
  · exact h (s + m) (by omega) (by omega)
  · rfl

theorem slice_write_at_self (db : DataBase) (s : Nat) (c : List Byte) :
    slice (db.write_at s c).buf s c.length = c := by
  rw [write_at_buf, slice]
  rw [List.drop_left' (write_at_prefix_length db s)]
  exact List.take_left c _

theorem read_at_eq_slice {db : DataBase} {s n : Nat} (h : s + n ≤ db.buf.length) :
    db.read_at s n = some (slice db.buf s n) := by
  unfold DataBase.read_at
  rw [if_pos (by omega)]
  rfl

theorem read_at_write_at (db : DataBase) (s : Nat) (c : List Byte) :
    (db.write_at s c).read_at s c.length = some c := by
  rw [read_at_eq_slice (by rw [write_at_buf_length]; omega), slice_write_at_self]

theorem write_at_getElem_lo {db : DataBase} {s j : Nat} (c : List Byte)
    (h1 : j < s) (h2 : j < db.buf.length) :
    (db.write_at s c).buf[j]? = db.buf[j]? := by
  rw [write_at_buf, List.getElem?_append, if_pos (by rw [write_at_prefix_length]; exact h1)]
  rw [List.getElem?_append, if_pos (by simp; omega)]
  rw [List.getElem?_take, if_pos h1]

theorem write_at_getElem_hi {db : DataBase} {s j : Nat} (c : List Byte)
    (h : s + c.length ≤ j) :
    (db.write_at s c).buf[j]? = db.buf[j]? := by
  rw [write_at_buf]
  rw [List.getElem?_append_right (by rw [write_at_prefix_length]; omega)]
  rw [write_at_prefix_length]
  rw [List.getElem?_append_right (by omega)]
  rw [List.getElem?_drop]
  have hj : s + c.length + (j - s - c.length) = j := by omega
  rw [hj]

theorem set_buf_len_buf_length (db : DataBase) (len : Nat) :
    (db.set_buf_len len).buf.length = len := by
  simp [DataBase.set_buf_len]
  omega

theorem set_buf_len_buf_of_le {db : DataBase} {len : Nat} (h : len ≤ db.buf.length) :
    (db.set_buf_len len).buf = db.buf.take len := by
  simp [DataBase.set_buf_len]
  omega

theorem set_buf_len_index (db : DataBase) (len : Nat) :
    (db.set_buf_len len).index = db.index := by
  simp [DataBase.set_buf_len]

theorem set_buf_len_self (db : DataBase) : db.set_buf_len db.buf.length = db := by
  cases db with
  | mk idx b => simp [DataBase.set_buf_len]

/-! ## `findKey`, `find?`, `set`, `eraseIdx` lemmas -/

theorem findKey_eq_none {k : Key} {l : List IndexEntry} :
    findKey k l = none ↔ ∀ e ∈ l, e.key ≠ k := by
  induction l with
  | nil => simp [findKey]
  | cons e rest ih =>
    by_cases h : e.key = k
    · simp [findKey, h]
    · cases hr : findKey k rest with
      | none =>
        simp only [findKey, if_neg h, hr]
        simp only [List.mem_cons]
        constructor
        · rintro - x (rfl | hx)
          · exact h
          · exact ih.mp hr x hx
        · intro _; trivial
      | some p =>
        obtain ⟨i, f⟩ := p
        simp only [findKey, if_neg h, hr]
        constructor
        · intro hc; cases hc
        · intro hall
          have : findKey k rest = none :=
            ih.mpr fun x hx => hall x (List.mem_cons_of_mem _ hx)
          rw [this] at hr; cases hr

theorem findKey_decomp {k : Key} {l : List IndexEntry} {i : Nat} {old : IndexEntry}
    (h : findKey k l = some (i, old)) :
    old.key = k ∧ ∃ l1 l2, l = l1 ++ old :: l2 ∧ l1.length = i ∧ ∀ e ∈ l1, e.key ≠ k := by
  induction l generalizing i with
  | nil => simp [findKey] at h
  | cons e rest ih =>
    by_cases he : e.key = k
    · simp only [findKey, if_pos he, Option.some.injEq, Prod.mk.injEq] at h
      obtain ⟨rfl, rfl⟩ := h
      exact ⟨he, [], rest, rfl, rfl, by simp⟩
    · cases hr : findKey k rest with
      | none => simp [findKey, if_neg he, hr] at h
      | some p =>
        obtain ⟨j, f⟩ := p
        simp only [findKey, if_neg he, hr, Option.some.injEq, Prod.mk.injEq] at h
        obtain ⟨rfl, rfl⟩ := h
        obtain ⟨hk, l1, l2, rfl, hlen, hkeys⟩ := ih hr
        refine ⟨hk, e :: l1, l2, rfl, by simp [hlen], ?_⟩
        intro x hx
        rcases List.mem_cons.mp hx with rfl | hx
        · exact he
        · exact hkeys x hx

theorem find?_eq_findKey (k : Key) (l : List IndexEntry) :
    l.find? (fun e => e.key = k) = (findKey k l).map Prod.snd := by
  induction l with
  | nil => simp [findKey]
  | cons e rest ih =>
    by_cases h : e.key = k
    · simp [List.find?_cons, findKey, h]
    · cases hr : findKey k rest with
      | none => simp [List.find?_cons, findKey, h, hr, ih]
      | some p => obtain ⟨i, f⟩ := p; simp [List.find?_cons, findKey, h, hr, ih]

theorem set_append_len {α : Type} (l1 : List α) (a e : α) (l2 : List α) :
    (l1 ++ a :: l2).set l1.length e = l1 ++ e :: l2 := by
  induction l1 with
  | nil => rfl
  | cons x t ih => simp [List.set, ih]

theorem eraseIdx_append_len {α : Type} (l1 : List α) (a : α) (l2 : List α) :
    (l1 ++ a :: l2).eraseIdx l1.length = l1 ++ l2 := by
  induction l1 with
  | nil => rfl
  | cons x t ih => simp [List.eraseIdx, ih]

theorem find?_append_none {α : Type} {p : α → Bool} {l1 : List α} (l2 : List α)
    (h : ∀ x ∈ l1, ¬ p x = true) :
    List.find? p (l1 ++ l2) = List.find? p l2 := by
  rw [List.find?_append, List.find?_eq_none.mpr h, Option.none_or]

theorem find?_middle_skip {α : Type} {p : α → Bool} (l1 l2 : List α) {e : α}
    (h : ¬ p e = true) :
    List.find? p (l1 ++ e :: l2) = List.find? p (l1 ++ l2) := by
  rw [List.find?_append, List.find?_append]
  have hf : p e = false := by revert h; cases p e <;> simp
  have : List.find? p (e :: l2) = List.find? p l2 := by
    simp [List.find?_cons, hf]
  rw [this]

/-! ## Invariant and `Contig` lemmas -/

theorem inv_nodup {l : List IndexEntry} (h : Inv l) : (l.map IndexEntry.key).Nodup := h.1

theorem inv_pairwise {l : List IndexEntry} (h : Inv l) : l.Pairwise chainLE := h.2.1

theorem inv_wf {l : List IndexEntry} (h : Inv l) : ∀ e ∈ l, entryWF e := h.2.2

theorem inv_sublist {l1 l2 : List IndexEntry} (hs : l1.Sublist l2) (h : Inv l2) : Inv l1 :=
  ⟨(hs.map IndexEntry.key).nodup h.1, h.2.1.sublist hs, fun e he => h.2.2 e (hs.mem he)⟩

theorem contig_mem_start_le {p : Nat} {l : List IndexEntry} (h : Contig p l)
    (hwf : ∀ e ∈ l, entryWF e) : ∀ e ∈ l, p ≤ e.range.start := by
  induction l generalizing p with
  | nil => simp
  | cons e rest ih =>
    obtain ⟨hstart, hrest⟩ := h
    intro x hx
    rcases List.mem_cons.mp hx with rfl | hx
    · omega
    · have hwfe := hwf e (List.mem_cons_self e rest)
      have := ih hrest (fun x hx => hwf x (List.mem_cons_of_mem _ hx)) x hx
      unfold entryWF at hwfe
      omega

theorem contig_pairwise {p : Nat} {l : List IndexEntry} (h : Contig p l)
    (hwf : ∀ e ∈ l, entryWF e) : l.Pairwise chainLE := by
  induction l generalizing p with
  | nil => exact List.Pairwise.nil
  | cons e rest ih =>
    obtain ⟨hstart, hrest⟩ := h
    refine List.pairwise_cons.mpr ⟨?_, ih hrest (fun x hx => hwf x (List.mem_cons_of_mem _ hx))⟩
    intro b hb
    exact contig_mem_start_le hrest (fun x hx => hwf x (List.mem_cons_of_mem _ hx)) b hb

theorem contig_getLast_stop {p : Nat} {l : List IndexEntry} (h : Contig p l)
    (hwf : ∀ e ∈ l, entryWF e) :
    ∀ lastE, l.getLast? = some lastE →
      lastE.range.stop = p + (l.map IndexEntry.size).sum := by
  induction l generalizing p with
  | nil => intro lastE hc; cases hc
  | cons e rest ih =>
    obtain ⟨hstart, hrest⟩ := h
    intro lastE hlast
    cases rest with
    | nil =>
      simp only [List.getLast?_singleton, Option.some.injEq] at hlast
      have hwfe := hwf e (List.mem_cons_self _ _)
      unfold entryWF at hwfe
      subst hlast
      simp [IndexEntry.size]
      omega
    | cons r t =>
      rw [List.getLast?_cons_cons] at hlast
      have := ih hrest (fun x hx => hwf x (List.mem_cons_of_mem _ hx)) lastE hlast
      have hwfe := hwf e (List.mem_cons_self _ _)
      unfold entryWF at hwfe
      simp only [List.map_cons, List.sum_cons]
      simp [IndexEntry.size] at this ⊢
      omega

theorem contig_stop_le_getLast {p : Nat} {l : List IndexEntry} (h : Contig p l)
    (hwf : ∀ e ∈ l, entryWF e) :
    ∀ e ∈ l, ∀ lastE, l.getLast? = some lastE → e.range.stop ≤ lastE.range.stop := by
  induction l generalizing p with
  | nil => simp
  | cons e rest ih =>
    obtain ⟨hstart, hrest⟩ := h
    intro x hx lastE hlast
    cases rest with
    | nil =>
      simp only [List.getLast?_singleton, Option.some.injEq] at hlast
      subst hlast
      rcases List.mem_cons.mp hx with rfl | hx
      · exact le_refl _
      · cases hx
    | cons r t =>
      rw [List.getLast?_cons_cons] at hlast
      have hwfrest : ∀ y ∈ r :: t, entryWF y := fun y hy => hwf y (List.mem_cons_of_mem _ hy)
      rcases List.mem_cons.mp hx with rfl | hx
      · have hstop := contig_getLast_stop hrest hwfrest lastE hlast
        omega
      · exact ih hrest hwfrest x hx lastE hlast

theorem shrinkFrom_of_contig {p : Nat} {l : List IndexEntry} (h : Contig p l) :
    shrinkFrom p l = l := by
  induction l generalizing p with
  | nil => rfl
  | cons e rest ih =>
    obtain ⟨hstart, hrest⟩ := h
    simp only [shrinkFrom]
    rw [if_neg (by omega)]
    simp [ih hrest]

theorem shrinkFrom_spec :
    ∀ (l : List IndexEntry) (p : Nat), l.Chain' chainLE → (∀ e ∈ l, entryWF e) →
      (∀ e0 ∈ l.head?, p ≤ e0.range.start) →
      List.Forall₂ entryRel (shrinkFrom p l) l ∧ Contig p (shrinkFrom p l) := by
  intro l
  induction l with
  | nil => intro p _ _ _; exact ⟨List.Forall₂.nil, trivial⟩
  | cons e rest ih =>
    intro p hchain hwf hhead
    have hp : p ≤ e.range.start := hhead e rfl
    have hwfe : entryWF e := hwf e (List.mem_cons_self _ _)
    unfold entryWF at hwfe
    rw [List.chain'_cons'] at hchain
    obtain ⟨hadj, hchain'⟩ := hchain
    simp only [shrinkFrom]
    set diff := e.range.start - p with hdiff
    have hkey : ∀ e' : IndexEntry,
        e' = (if diff ≠ 0 then ⟨e.key, ⟨e.range.start - diff, e.range.stop - diff⟩⟩ else e) →
        e'.key = e.key ∧ e'.range.start = p ∧ e'.range.stop = e.range.stop - diff := by
      intro e' he'
      by_cases hd : diff = 0
      · subst he'; rw [if_neg (by omega)]
        refine ⟨rfl, by omega, by omega⟩
      · subst he'; rw [if_pos hd]
        refine ⟨rfl, by simp; omega, by simp⟩
    set e' : IndexEntry :=
      (if diff ≠ 0 then ⟨e.key, ⟨e.range.start - diff, e.range.stop - diff⟩⟩ else e) with he'
    obtain ⟨hk, hs, hst⟩ := hkey e' rfl
    have hrest := ih e'.range.stop hchain'
      (fun x hx => hwf x (List.mem_cons_of_mem _ hx))
      (by
        intro e0 he0
        have := hadj e0 he0
        unfold chainLE at this
        omega)
    refine ⟨List.Forall₂.cons ?_ hrest.1, ?_, hrest.2⟩
    · refine ⟨hk, by omega, by omega, ?_⟩
      unfold IndexEntry.size
      omega
    · exact hs

/-! ## `Forall₂ entryRel` lemmas -/

theorem forall₂_map_key {ns os : List IndexEntry} (h : List.Forall₂ entryRel ns os) :
    ns.map IndexEntry.key = os.map IndexEntry.key := by
  induction h with
  | nil => rfl
  | cons hr _ ih => simp [hr.1, ih]

theorem forall₂_map_size {ns os : List IndexEntry} (h : List.Forall₂ entryRel ns os) :
    ns.map IndexEntry.size = os.map IndexEntry.size := by
  induction h with
  | nil => rfl
  | cons hr _ ih =>
    obtain ⟨-, -, -, hstop⟩ := hr
    simp only [List.map_cons, ih]
    congr 1
    unfold IndexEntry.size at *
    omega

theorem forall₂_wf {ns os : List IndexEntry} (h : List.Forall₂ entryRel ns os) :
    ∀ x ∈ ns, entryWF x := by
  induction h with
  | nil => simp
  | cons hr _ ih =>
    intro x hx
    rcases List.mem_cons.mp hx with rfl | hx
    · obtain ⟨-, -, -, hstop⟩ := hr
      unfold entryWF
      omega
    · exact ih x hx

theorem forall₂_find? {ns os : List IndexEntry} (k : Key) (h : List.Forall₂ entryRel ns os) :
    (os.find? (fun e => e.key = k) = none → ns.find? (fun e => e.key = k) = none) ∧
    (∀ o, os.find? (fun e => e.key = k) = some o →
      ∃ x, ns.find? (fun e => e.key = k) = some x ∧ entryRel x o ∧ (o, x) ∈ os.zip ns) := by
  induction h with
  | nil => exact ⟨fun _ => rfl, fun o ho => by cases ho⟩
  | cons hr hrest ih =>
    rename_i x o ns' os'
    by_cases hk : o.key = k
    · have hxk : x.key = k := by rw [hr.1]; exact hk
      have hos : (o :: os').find? (fun e => e.key = k) = some o := by
        rw [List.find?_cons]; simp [hk]
      have hns : (x :: ns').find? (fun e => e.key = k) = some x := by
        rw [List.find?_cons]; simp [hxk]
      refine ⟨fun hnone => absurd hnone (by rw [hos]; simp), fun o' ho' => ?_⟩
      rw [hos, Option.some.injEq] at ho'
      subst ho'
      exact ⟨x, hns, hr, by simp [List.zip_cons_cons]⟩
    · have hxk : ¬ x.key = k := by rw [hr.1]; exact hk
      have hos : (o :: os').find? (fun e => e.key = k) = os'.find? (fun e => e.key = k) := by
        rw [List.find?_cons]; simp [hk]
      have hns : (x :: ns').find? (fun e => e.key = k) = ns'.find? (fun e => e.key = k) := by
        rw [List.find?_cons]; simp [hxk]
      refine ⟨fun hnone => by rw [hns]; exact ih.1 (by rw [← hos]; exact hnone),
        fun o' ho' => ?_⟩
      rw [hos] at ho'
      obtain ⟨y, hy, hrel, hmem⟩ := ih.2 o' ho'
      exact ⟨y, by rw [hns]; exact hy, hrel, by simp [List.zip_cons_cons, hmem]⟩

/-! ## First-fit allocation lemmas -/

theorem pairwise_last_stop {l : List IndexEntry} (hp : l.Pairwise chainLE)
    (hwf : ∀ e ∈ l, entryWF e) :
    ∀ lastE, l.getLast? = some lastE → ∀ a ∈ l, a.range.stop ≤ lastE.range.stop := by
  intro lastE hlast a ha
  have hne : l ≠ [] := by rintro rfl; cases hlast
  rw [List.getLast?_eq_getLast l hne, Option.some.injEq] at hlast
  have hdec := List.dropLast_append_getLast hne
  rw [hlast] at hdec
  rw [← hdec] at ha hp
  rcases List.mem_append.mp ha with hd | hl
  · obtain ⟨-, -, hcross⟩ := List.pairwise_append.mp hp
    have h1 := hcross a hd lastE (by simp)
    have h2 := hwf lastE (by rw [← hdec]; simp)
    unfold chainLE at h1
    unfold entryWF at h2
    omega
  · simp only [List.mem_singleton] at hl
    subst hl
    exact le_refl _

theorem scanGaps_some_spec (k : Key) (n : Nat) :
    ∀ (l : List IndexEntry), l.Pairwise chainLE → (∀ x ∈ l, entryWF x) →
      ∀ e l', scanGaps k n l = some (e, l') →
        e.key = k ∧ e.range.stop = e.range.start + n ∧
        Free l e.range.start n ∧
        (∀ t, t < e.range.start → Free l t n → ∀ h0 ∈ l.head?, t + n ≤ h0.range.start) ∧
        ∃ l1 l2, l1 ≠ [] ∧ l = l1 ++ l2 ∧ l' = l1 ++ e :: l2 ∧
          (∀ a ∈ l1, chainLE a e) ∧ (∀ b ∈ l2, chainLE e b) := by
  intro l
  induction l with
  | nil => intro _ _ e l' h; simp [scanGaps] at h
  | cons a tl ih =>
    intro hp hwf e l' hscan
    cases tl with
    | nil => simp [scanGaps] at hscan
    | cons b rest =>
      have hab : chainLE a b := (List.pairwise_cons.mp hp).1 b (by simp)
      have hwfa : entryWF a := hwf a (by simp)
      have hwfb : entryWF b := hwf b (by simp)
      have hptl : (b :: rest).Pairwise chainLE := (List.pairwise_cons.mp hp).2
      have hwftl : ∀ x ∈ b :: rest, entryWF x :=
        fun x hx => hwf x (List.mem_cons_of_mem _ hx)
      unfold chainLE at hab
      unfold entryWF at hwfa hwfb
      by_cases hfit : n ≤ b.range.start - a.range.stop
      · rw [show scanGaps k n (a :: b :: rest)
            = some (⟨k, ⟨a.range.stop, a.range.stop + n⟩⟩,
                a :: ⟨k, ⟨a.range.stop, a.range.stop + n⟩⟩ :: b :: rest) from by
              simp [scanGaps, hfit]] at hscan
        obtain ⟨rfl, rfl⟩ : e = ⟨k, ⟨a.range.stop, a.range.stop + n⟩⟩
            ∧ l' = a :: ⟨k, ⟨a.range.stop, a.range.stop + n⟩⟩ :: b :: rest := by
          have h2 := Option.some.injEq _ _ |>.mp hscan
          exact ⟨(congrArg Prod.fst h2).symm, (congrArg Prod.snd h2).symm⟩
        refine ⟨rfl, rfl, ?_, ?_, [a], b :: rest, by simp, rfl, rfl, ?_, ?_⟩
        · intro x hx
          rcases List.mem_cons.mp hx with rfl | hx
          · left; exact le_refl _
          rcases List.mem_cons.mp hx with rfl | hx
          · right; simp; omega
          · right
            have hbx : chainLE b x := (List.pairwise_cons.mp hptl).1 x hx
            unfold chainLE at hbx
            simp
            omega
        · intro t ht hfree h0 hh0
          simp only [List.head?_cons, Option.mem_def, Option.some.injEq] at hh0
          subst hh0
          rcases hfree a (by simp) with h | h
          · simp at ht; omega
          · exact h
        · intro x hx
          simp only [List.mem_singleton] at hx
          subst hx
          unfold chainLE
          simp
        · intro x hx
          unfold chainLE
          rcases List.mem_cons.mp hx with rfl | hx
          · simp; omega
          · have hbx : chainLE b x := (List.pairwise_cons.mp hptl).1 x hx
            unfold chainLE at hbx
            simp
            omega
      · have hscan' : ∃ l'', scanGaps k n (b :: rest) = some (e, l'') ∧ l' = a :: l'' := by
          simp only [scanGaps, if_neg hfit] at hscan
          cases hs : scanGaps k n (b :: rest) with
          | none => rw [hs] at hscan; cases hscan
          | some p =>
            obtain ⟨e'', l''⟩ := p
            rw [hs] at hscan
            have := Option.some.injEq _ _ |>.mp hscan
            obtain rfl : e'' = e := congrArg Prod.fst this
            exact ⟨l'', rfl, (congrArg Prod.snd this).symm⟩
        obtain ⟨l'', hs, rfl⟩ := hscan'
        obtain ⟨hkey, hstop, hfree, hmin, m1, m2, hm1ne, hbr, hl'', hc1, hc2⟩ :=
          ih hptl hwftl e l'' hs
        obtain ⟨m1h, m1t, rfl⟩ : ∃ h t, m1 = h :: t := by
          cases m1 with
          | nil => exact absurd rfl hm1ne
          | cons h t => exact ⟨h, t, rfl⟩
        have hbm1 : m1h = b := by
          have := congrArg List.head? hbr
          simpa using this.symm
        subst hbm1
        have hbe : chainLE m1h e := hc1 m1h (by simp)
        unfold chainLE at hbe
        have hae : a.range.stop ≤ e.range.start := by omega
        refine ⟨hkey, hstop, ?_, ?_, a :: m1h :: m1t, m2, by simp,
          by simp [hbr], by rw [hl'']; rfl, ?_, hc2⟩
        · intro x hx
          rcases List.mem_cons.mp hx with rfl | hx
          · left; exact hae
          · exact hfree x hx
        · intro t ht hfr h0 hh0
          simp only [List.head?_cons, Option.mem_def, Option.some.injEq] at hh0
          subst hh0
          rcases hfr a (by simp) with h | h
          · have hfr' : Free (m1h :: rest) t n :=
              fun x hx => hfr x (List.mem_cons_of_mem _ hx)
            have := hmin t ht hfr' m1h (by simp)
            omega
          · exact h
        · intro x hx
          rcases List.mem_cons.mp hx with rfl | hx
          · exact hae
          · exact hc1 x hx

theorem scanGaps_none_spec (k : Key) (n : Nat) :
    ∀ (l : List IndexEntry), l.Pairwise chainLE → (∀ x ∈ l, entryWF x) →
      scanGaps k n l = none →
      ∀ lastE ∈ l.getLast?, ∀ t, t < lastE.range.stop → Free l t n →
        ∀ h0 ∈ l.head?, t + n ≤ h0.range.start := by
  intro l
  induction l with
  | nil => intro _ _ _ lastE hl; cases hl
  | cons a tl ih =>
    intro hp hwf hscan lastE hlast t ht hfree h0 hh0
    simp only [List.head?_cons, Option.mem_def, Option.some.injEq] at hh0
    subst hh0
    cases tl with
    | nil =>
      simp only [List.getLast?_singleton, Option.mem_def, Option.some.injEq] at hlast
      subst hlast
      rcases hfree a (by simp) with h | h
      · omega
      · exact h
    | cons b rest =>
      have hab : chainLE a b := (List.pairwise_cons.mp hp).1 b (by simp)
      have hptl : (b :: rest).Pairwise chainLE := (List.pairwise_cons.mp hp).2
      have hwftl : ∀ x ∈ b :: rest, entryWF x :=
        fun x hx => hwf x (List.mem_cons_of_mem _ hx)
      unfold chainLE at hab
      have hnofit : ¬ n ≤ b.range.start - a.range.stop := by
        intro hfit
        simp [scanGaps, hfit] at hscan
      have hscan' : scanGaps k n (b :: rest) = none := by
        simp only [scanGaps, if_neg hnofit] at hscan
        cases hs : scanGaps k n (b :: rest) with
        | none => rfl
        | some p => obtain ⟨e'', l''⟩ := p; rw [hs] at hscan; cases hscan
      rw [List.getLast?_cons_cons] at hlast
      have hfr' : Free (b :: rest) t n := fun x hx => hfree x (List.mem_cons_of_mem _ hx)
      have hmin := ih hptl hwftl hscan' lastE hlast t ht hfr' b (by simp)
      rcases hfree a (by simp) with h | h
      · omega
      · exact h

theorem alloc_spec (idx : Index) (n : Nat) (k : Key)
    (hp : idx.entries.Pairwise chainLE) (hwf : ∀ e ∈ idx.entries, entryWF e) :
    ∃ e idx', idx.alloc_entry n k = (e, idx') ∧ e.key = k ∧
      e.range.stop = e.range.start + n ∧ Free idx.entries e.range.start n ∧
      (∀ t, t < e.range.start → ¬ Free idx.entries t n) ∧
      idx'.file = index_to_string idx'.entries ∧
      ∃ l1 l2, idx.entries = l1 ++ l2 ∧ idx'.entries = l1 ++ e :: l2 ∧
        (∀ a ∈ l1, chainLE a e) ∧ (∀ b ∈ l2, chainLE e b) := by
  obtain ⟨ents, fl⟩ := idx
  simp only at hp hwf ⊢
  cases ents with
  | nil =>
    refine ⟨⟨k, ⟨0, n⟩⟩, ⟨[⟨k, ⟨0, n⟩⟩], index_to_string [⟨k, ⟨0, n⟩⟩]⟩,
      by simp [Index.alloc_entry, appendEntry, Index.write_index], rfl, by simp,
      ?_, ?_, rfl, [], [], rfl, rfl, by simp, by simp⟩
    · intro x hx; cases hx
    · intro t ht; exact absurd ht (by simp)
  | cons e0 rest =>
    have hwf0 : entryWF e0 := hwf e0 (by simp)
    unfold entryWF at hwf0
    by_cases hfront : n ≤ e0.range.start
    · refine ⟨⟨k, ⟨0, n⟩⟩, ⟨⟨k, ⟨0, n⟩⟩ :: e0 :: rest,
        index_to_string (⟨k, ⟨0, n⟩⟩ :: e0 :: rest)⟩, ?_, rfl, by simp, ?_, ?_, rfl,
        [], e0 :: rest, rfl, rfl, by simp, ?_⟩
      · simp [Index.alloc_entry, hfront, Index.write_index]
      · intro x hx
        right
        rcases List.mem_cons.mp hx with rfl | hx
        · simpa using hfront
        · have := (List.pairwise_cons.mp hp).1 x hx
          unfold chainLE at this
          simp
          omega
      · intro t ht; exact absurd ht (by simp)
      · intro x hx
        unfold chainLE
        rcases List.mem_cons.mp hx with rfl | hx
        · simpa using hfront
        · have := (List.pairwise_cons.mp hp).1 x hx
          unfold chainLE at this
          simp
          omega
    · cases hscan : scanGaps k n (e0 :: rest) with
      | some p =>
        obtain ⟨e, l'⟩ := p
        obtain ⟨hkey, hstop, hfree, hmin, l1, l2, hl1ne, hsplit, hents, hc1, hc2⟩ :=
          scanGaps_some_spec k n (e0 :: rest) hp hwf e l' hscan
        refine ⟨e, ⟨l', index_to_string l'⟩, ?_, hkey, hstop, hfree, ?_, rfl,
          l1, l2, hsplit, by simpa using hents, hc1, hc2⟩
        · simp [Index.alloc_entry, hfront, hscan, Index.write_index]
        · intro t ht hfr
          have := hmin t ht hfr e0 (by simp)
          omega
      | none =>
        obtain ⟨lastE, hlast⟩ : ∃ x, (e0 :: rest).getLast? = some x :=
          ⟨_, List.getLast?_eq_getLast _ (by simp)⟩
        refine ⟨⟨k, ⟨lastE.range.stop, lastE.range.stop + n⟩⟩,
          ⟨(e0 :: rest) ++ [⟨k, ⟨lastE.range.stop, lastE.range.stop + n⟩⟩],
            index_to_string ((e0 :: rest) ++ [⟨k, ⟨lastE.range.stop, lastE.range.stop + n⟩⟩])⟩,
          ?_, rfl, rfl, ?_, ?_, rfl, e0 :: rest, [], by simp, by simp, ?_, by simp⟩
        · simp [Index.alloc_entry, hfront, hscan, appendEntry, hlast, Index.write_index]
        · intro x hx
          left
          exact pairwise_last_stop hp hwf lastE hlast x hx
        · intro t ht hfr
          have := scanGaps_none_spec k n (e0 :: rest) hp hwf hscan lastE
            (Option.mem_def.mpr hlast) t ht hfr e0 (by simp)
          omega
        · intro x hx
          unfold chainLE
          exact pairwise_last_stop hp hwf lastE hlast x hx

theorem alloc_inv {idx : Index} {n : Nat} {k : Key} (h : Inv idx.entries)
    (hk : ∀ e ∈ idx.entries, e.key ≠ k) :
    Inv (idx.alloc_entry n k).2.entries := by
  obtain ⟨e, idx', heq, hkey, hstop, hfree, hmin, hfile, l1, l2, hsplit, hents, hc1, hc2⟩ :=
    alloc_spec idx n k h.2.1 h.2.2
  rw [heq]
  simp only
  rw [hents]
  have hmem12 : ∀ x, x ∈ l1 ∨ x ∈ l2 → x ∈ idx.entries := by
    intro x hx
    rw [hsplit]
    exact List.mem_append.mpr hx
  refine ⟨?_, ?_, ?_⟩
  · simp only [List.map_append, List.map_cons]
    rw [List.nodup_middle]
    refine List.nodup_cons.mpr ⟨?_, ?_⟩
    · intro hm
      rw [← List.map_append] at hm
      obtain ⟨x, hx, hxk⟩ := List.mem_map.mp hm
      exact hk x (hmem12 x (List.mem_append.mp hx)) (by rw [hxk, hkey])
    · rw [← List.map_append, ← hsplit]
      exact h.1
  · refine List.pairwise_append.mpr ⟨?_, ?_, ?_⟩
    · exact h.2.1.sublist (hsplit ▸ List.sublist_append_left l1 l2)
    · refine List.pairwise_cons.mpr ⟨hc2, ?_⟩
      exact h.2.1.sublist (hsplit ▸ List.sublist_append_right l1 l2)
    · intro x hx y hy
      rcases List.mem_cons.mp hy with rfl | hy
      · exact hc1 x hx
      · have hpair := List.pairwise_append.mp (hsplit ▸ h.2.1)
        exact hpair.2.2 x hx y hy
  · intro x hx
    rcases List.mem_append.mp hx with hx | hx
    · exact h.2.2 x (hmem12 x (Or.inl hx))
    · rcases List.mem_cons.mp hx with rfl | hx
      · unfold entryWF; omega
      · exact h.2.2 x (hmem12 x (Or.inr hx))

/-! ## `insert_entry` lemmas -/

theorem insert_entry_eq_none {idx : Index} {n : Nat} {k : Key}
    (hfk : findKey k idx.entries = none) :
    idx.insert_entry n k = idx.alloc_entry n k := by
  unfold Index.insert_entry
  rw [hfk]

theorem insert_entry_eq_grow {idx : Index} {i : Nat} {old : IndexEntry} {n : Nat} {k : Key}
    (hfk : findKey k idx.entries = some (i, old)) (hg : old.size < n) :
    idx.insert_entry n k
      = Index.alloc_entry { idx with entries := idx.entries.eraseIdx i } n k := by
  unfold Index.insert_entry
  rw [hfk]
  simp [hg]

theorem insert_entry_eq_fit {idx : Index} {i : Nat} {old : IndexEntry} {n : Nat} {k : Key}
    (hfk : findKey k idx.entries = some (i, old)) (hg : ¬ old.size < n) :
    idx.insert_entry n k
      = (⟨k, ⟨old.range.start, old.range.start + n⟩⟩,
          Index.write_index
            { idx with entries := idx.entries.set i ⟨k, ⟨old.range.start, old.range.start + n⟩⟩ }) := by
  unfold Index.insert_entry
  rw [hfk]
  simp [hg]

theorem get_entry_some_findKey {idx : Index} {k : Key} {old : IndexEntry}
    (h : idx.get_entry k = some old) : ∃ i, findKey k idx.entries = some (i, old) := by
  unfold Index.get_entry at h
  rw [find?_eq_findKey] at h
  cases hfk : findKey k idx.entries with
  | none => rw [hfk] at h; cases h
  | some p =>
    obtain ⟨i, f⟩ := p
    rw [hfk] at h
    simp at h
    exact ⟨i, by rw [h]⟩

theorem insert_entry_spec (idx : Index) (n : Nat) (k : Key) (h : Inv idx.entries) :
    ∃ e idx', idx.insert_entry n k = (e, idx') ∧ e.key = k ∧
      e.range.stop = e.range.start + n ∧
      Inv idx'.entries ∧
      idx'.entries.find? (fun x => x.key = k) = some e ∧
      (∀ k', k' ≠ k → idx'.entries.find? (fun x => x.key = k')
          = idx.entries.find? (fun x => x.key = k')) ∧
      (∀ e' ∈ idx.entries, e'.key ≠ k →
        e' ∈ idx'.entries ∧
          (e'.range.stop ≤ e.range.start ∨ e.range.stop ≤ e'.range.start)) := by
  cases hfk : findKey k idx.entries with
  | none =>
    have hnk : ∀ x ∈ idx.entries, x.key ≠ k := findKey_eq_none.mp hfk
    obtain ⟨e, idx', heq, hkey, hstop, hfree, hmin, hfile, l1, l2, hsplit, hents, hc1, hc2⟩ :=
      alloc_spec idx n k h.2.1 h.2.2
    have hinv : Inv idx'.entries := by
      have := alloc_inv (n := n) (k := k) h hnk
      rw [heq] at this
      exact this
    refine ⟨e, idx', by rw [insert_entry_eq_none hfk, heq], hkey, hstop, hinv, ?_, ?_, ?_⟩
    · rw [hents]
      rw [find?_append_none (e :: l2) (by
        intro x hx
        simp only [decide_eq_true_eq]
        exact hnk x (by rw [hsplit]; exact List.mem_append_left _ hx))]
      rw [List.find?_cons]
      simp [hkey]
    · intro k' hk'
      rw [hents, find?_middle_skip l1 l2 (by simp [hkey, Ne.symm hk']), ← hsplit]
    · intro e' he' _
      have : e' ∈ l1 ∨ e' ∈ l2 := List.mem_append.mp (hsplit ▸ he')
      rcases this with hx | hx
      · exact ⟨by rw [hents]; exact List.mem_append_left _ hx, Or.inl (hc1 e' hx)⟩
      · exact ⟨by rw [hents]; exact List.mem_append_right _ (List.mem_cons_of_mem _ hx),
          Or.inr (hc2 e' hx)⟩
  | some p =>
    obtain ⟨i, old⟩ := p
    obtain ⟨holdk, l1, l2, hsplit, hlen, hl1k⟩ := findKey_decomp hfk
    have hl2k : ∀ x ∈ l2, x.key ≠ k := by
      intro x hx hxk
      have hnodup := h.1
      rw [hsplit] at hnodup
      simp only [List.map_append, List.map_cons] at hnodup
      have := (List.nodup_middle.mp hnodup)
      rw [List.nodup_cons] at this
      exact this.1 (List.mem_append_right _ (by
        rw [holdk, ← hxk]
        exact List.mem_map_of_mem IndexEntry.key hx))
    by_cases hg : old.size < n
    · -- grow: remove the old entry, then allocate afresh
      have herase : idx.entries.eraseIdx i = l1 ++ l2 := by
        rw [hsplit, ← hlen, eraseIdx_append_len]
      have hsub : (l1 ++ l2).Sublist idx.entries := by
        rw [hsplit]
        exact (List.sublist_cons_self old l2).append_left l1
      have hinv0 : Inv (l1 ++ l2) := inv_sublist hsub h
      have hnk0 : ∀ x ∈ l1 ++ l2, x.key ≠ k := by
        intro x hx
        rcases List.mem_append.mp hx with hx | hx
        · exact hl1k x hx
        · exact hl2k x hx
      set idx0 : Index := { idx with entries := l1 ++ l2 } with hidx0
      have hidx0e : idx0.entries = l1 ++ l2 := rfl
      obtain ⟨e, idx', heq, hkey, hstop, hfree, hmin, hfile, m1, m2, hsplit', hents, hc1, hc2⟩ :=
        alloc_spec idx0 n k (hidx0e ▸ hinv0.2.1) (hidx0e ▸ hinv0.2.2)
    -- sorry, continued below
      have hinv' : Inv idx'.entries := by
        have := alloc_inv (n := n) (k := k) (hidx0e ▸ hinv0) (hidx0e ▸ hnk0)
        rw [heq] at this
        exact this
      have hmem0 : ∀ x, x ∈ m1 ∨ x ∈ m2 → x ∈ l1 ++ l2 := by
        intro x hx
        rw [← hidx0e, hsplit']
        exact List.mem_append.mpr hx
      refine ⟨e, idx', ?_, hkey, hstop, hinv', ?_, ?_, ?_⟩
      · rw [insert_entry_eq_grow hfk hg]
        rw [show ({ idx with entries := idx.entries.eraseIdx i } : Index) = idx0 from by
          rw [hidx0, herase]]
        exact heq
      · rw [hents]
        rw [find?_append_none (e :: m2) (by
          intro x hx
          simp only [decide_eq_true_eq]
          exact hnk0 x (hmem0 x (Or.inl hx)))]
        rw [List.find?_cons]
        simp [hkey]
      · intro k' hk'
        rw [hents, find?_middle_skip m1 m2 (by simp [hkey, Ne.symm hk']), ← hsplit',
          hidx0e, hsplit, find?_middle_skip l1 l2 (by simp [holdk, Ne.symm hk'])]
      · intro e' he' hek
        have he'0 : e' ∈ l1 ++ l2 := by
          rw [hsplit] at he'
          rcases List.mem_append.mp he' with hx | hx
          · exact List.mem_append_left _ hx
          · rcases List.mem_cons.mp hx with rfl | hx
            · exact absurd holdk hek
            · exact List.mem_append_right _ hx
        have hfr := hfree e' (hidx0e ▸ he'0)
        have hfr2 : e'.range.stop ≤ e.range.start ∨ e.range.stop ≤ e'.range.start := by
          rcases hfr with h' | h'
          · exact Or.inl h'
          · right; omega
        have : e' ∈ m1 ∨ e' ∈ m2 := List.mem_append.mp (hsplit' ▸ (hidx0e ▸ he'0 : e' ∈ idx0.entries))
        rcases this with hx | hx
        · exact ⟨by rw [hents]; exact List.mem_append_left _ hx, hfr2⟩
        · exact ⟨by rw [hents]; exact List.mem_append_right _ (List.mem_cons_of_mem _ hx), hfr2⟩
    · -- fit: replace in place, reusing the old start
      set e : IndexEntry := ⟨k, ⟨old.range.start, old.range.start + n⟩⟩ with he
      have hset : idx.entries.set i e = l1 ++ e :: l2 := by
        rw [hsplit, ← hlen, set_append_len]
      have hwfold : entryWF old := h.2.2 old (by rw [hsplit]; exact List.mem_append_right _ (by simp))
      have holdstop : old.range.stop = old.range.start + old.size := by
        unfold entryWF at hwfold
        unfold IndexEntry.size
        omega
      have hestop : e.range.stop ≤ old.range.stop := by
        rw [he]
        simp
        omega
      have hpair := List.pairwise_append.mp (hsplit ▸ h.2.1)
      have hl1old : ∀ x ∈ l1, chainLE x old := fun x hx => hpair.2.2 x hx old (by simp)
      have holdl2 : ∀ y ∈ l2, chainLE old y := fun y hy => (List.pairwise_cons.mp hpair.2.1).1 y hy
      have hinv' : Inv (l1 ++ e :: l2) := by
        refine ⟨?_, ?_, ?_⟩
        · have hnodup := h.1
          rw [hsplit] at hnodup
          simp only [List.map_append, List.map_cons] at hnodup ⊢
          rw [holdk] at hnodup
          exact hnodup
        · refine List.pairwise_append.mpr ⟨hpair.1, ?_, ?_⟩
          · refine List.pairwise_cons.mpr ⟨?_, (List.pairwise_cons.mp hpair.2.1).2⟩
            intro y hy
            have := holdl2 y hy
            unfold chainLE at this ⊢
            omega
          · intro x hx y hy
            rcases List.mem_cons.mp hy with rfl | hy
            · have := hl1old x hx
              unfold chainLE at this ⊢
              rw [he]
              simp only
              omega
            · exact hpair.2.2 x hx y (List.mem_cons_of_mem _ hy)
        · intro x hx
          rcases List.mem_append.mp hx with hx | hx
          · exact h.2.2 x (by rw [hsplit]; exact List.mem_append_left _ hx)
          · rcases List.mem_cons.mp hx with rfl | hx
            · unfold entryWF; rw [he]; simp
            · exact h.2.2 x
                (by rw [hsplit]; exact List.mem_append_right _ (List.mem_cons_of_mem _ hx))
      refine ⟨e, Index.write_index { idx with entries := idx.entries.set i e },
        insert_entry_eq_fit hfk hg, rfl, by rw [he], ?_, ?_, ?_, ?_⟩
      · show Inv (idx.entries.set i e)
        rw [hset]
        exact hinv'
      · show (idx.entries.set i e).find? _ = some e
        rw [hset]
        rw [find?_append_none (e :: l2) (by
          intro x hx
          simp only [decide_eq_true_eq]
          exact hl1k x hx)]
        rw [List.find?_cons]
        simp [he]
      · intro k' hk'
        show (idx.entries.set i e).find? _ = _
        rw [hset, find?_middle_skip l1 l2 (by rw [he]; simp [Ne.symm hk']), hsplit,
          find?_middle_skip l1 l2 (by simp [holdk, Ne.symm hk'])]
      · intro e' he' hek
        have he'12 : e' ∈ l1 ∨ e' ∈ l2 := by
          rw [hsplit] at he'
          rcases List.mem_append.mp he' with hx | hx
          · exact Or.inl hx
          · rcases List.mem_cons.mp hx with rfl | hx
            · exact absurd holdk hek
            · exact Or.inr hx
        constructor
        · show e' ∈ idx.entries.set i e
          rw [hset]
          rcases he'12 with hx | hx
          · exact List.mem_append_left _ hx
          · exact List.mem_append_right _ (List.mem_cons_of_mem _ hx)
        · rcases he'12 with hx | hx
          · left
            have := hl1old e' hx
            unfold chainLE at this
            rw [he]
            simp only
            omega
          · right
            have := holdl2 e' hx
            unfold chainLE at this
            omega

/-! ## Claim theorems -/

/-- C1: for every key and every value, on a store satisfying the directory
invariant, after `DataBase::insert(key, value)` a `DataBase::get(key)` returns
`Some(value)` (values are byte sequences; `from_utf8_lossy` is the identity on
the bytes previously written from a `&str`). -/
theorem insert_get_roundtrip (db : DataBase) (k : Key) (v : List Byte)
    (h : Inv db.index.entries) :
    (db.insert k v).get k = some v := by
  obtain ⟨e, idx', heq, hkey, hstop, hinv, hfind, hframe, hdisj⟩ :=
    insert_entry_spec db.index v.length k h
  have hins : db.insert k v
      = DataBase.write_at { db with index := idx' } e.range.start v := by
    simp only [DataBase.insert, heq]
  rw [hins]
  unfold DataBase.get
  have hge : (DataBase.write_at { db with index := idx' } e.range.start v).index.get_entry k
      = some e := by
    rw [write_at_index]
    exact hfind
  rw [hge]
  show (DataBase.write_at { db with index := idx' } e.range.start v).read_at
      e.range.start e.size = some v
  have hsz : e.size = v.length := by
    unfold IndexEntry.size
    omega
  rw [hsz]
  exact read_at_write_at _ _ _

theorem insert_get_roundtrip_witness :
    Inv (⟨⟨[⟨['a'], ⟨0, 2⟩⟩], []⟩, [7, 7]⟩ : DataBase).index.entries ∧
    ((⟨⟨[⟨['a'], ⟨0, 2⟩⟩], []⟩, [7, 7]⟩ : DataBase).insert ['b'] [1, 2, 3]).get ['b']
      = some [1, 2, 3] :=
  ⟨by decide, insert_get_roundtrip _ ['b'] [1, 2, 3] (by decide)⟩

/-- C3 counterexample: `alloc_entry` called with a key that is already present
violates key-uniqueness: on the invariant-satisfying directory
`[a ↦ [0,1)]`, `alloc_entry(1, "a")` appends a second entry with key `a`
(`alloc_entry` never looks at keys; only `insert_entry` deduplicates). -/
theorem alloc_entry_breaks_key_uniqueness :
    Inv [⟨['a'], ⟨0, 1⟩⟩] ∧
    ¬ Inv ((Index.alloc_entry ⟨[⟨['a'], ⟨0, 1⟩⟩], []⟩ 1 ['a']).2.entries) := by
  constructor <;> decide

/-- C3 amended: the invariant `Inv` (pairwise-distinct keys, pairwise
non-overlapping ranges in ascending order, well-formed ranges — the first
conjunct below shows `Inv` implies the three properties the claim lists) is
preserved by `insert_entry`, `remove_entry`, `shrink_entries` and `clear_all`
unconditionally, and by `alloc_entry` provided the allocated key is not
already present (which holds on every internal call from `insert_entry`). -/
theorem index_ops_preserve_invariants :
    (∀ l : List IndexEntry, Inv l →
      l.Pairwise (fun a b => a.key ≠ b.key) ∧
      l.Pairwise (fun a b => a.range.stop ≤ b.range.start ∨ b.range.stop ≤ a.range.start) ∧
      l.Pairwise (fun a b => a.range.start ≤ b.range.start)) ∧
    (∀ (idx : Index) (n : Nat) (k : Key), Inv idx.entries →
      Inv (idx.insert_entry n k).2.entries ∧
      ((∀ e ∈ idx.entries, e.key ≠ k) → Inv (idx.alloc_entry n k).2.entries) ∧
      Inv (idx.remove_entry k).2.entries ∧
      Inv idx.shrink_entries.2.entries ∧
      Inv idx.clear_all.entries) := by
  constructor
  · intro l h
    refine ⟨List.pairwise_map.mp h.1, h.2.1.imp Or.inl, ?_⟩
    refine h.2.1.imp_of_mem ?_
    intro a b ha hb hab
    have hwa := h.2.2 a ha
    unfold entryWF at hwa
    unfold chainLE at hab
    omega
  · intro idx n k h
    refine ⟨?_, fun hnk => alloc_inv h hnk, ?_, ?_, ?_⟩
    · obtain ⟨e, idx', heq, -, -, hinv, -⟩ := insert_entry_spec idx n k h
      rw [heq]
      exact hinv
    · cases hfk : findKey k idx.entries with
      | none =>
        have hr : idx.remove_entry k = (none, idx) := by
          unfold Index.remove_entry
          rw [hfk]
        rw [hr]
        exact h
      | some p =>
        obtain ⟨i, old⟩ := p
        have hr : idx.remove_entry k
            = (some old, Index.write_index { idx with entries := idx.entries.eraseIdx i }) := by
          unfold Index.remove_entry
          rw [hfk]
        rw [hr]
        obtain ⟨-, l1, l2, hsplit, hlen, -⟩ := findKey_decomp hfk
        show Inv (idx.entries.eraseIdx i)
        rw [hsplit, ← hlen, eraseIdx_append_len]
        exact inv_sublist (by rw [hsplit]; exact (List.sublist_cons_self old l2).append_left l1) h
    · cases hent : idx.entries with
      | nil =>
        have : idx.shrink_entries = (idx.entries, idx) := by
          unfold Index.shrink_entries
          rw [hent]
          simp
        rw [this]
        exact h
      | cons e0 rest =>
        have hs : idx.shrink_entries
            = (idx.entries, Index.write_index { idx with entries := shrinkFrom 0 idx.entries }) := by
          unfold Index.shrink_entries
          rw [hent]
          simp
        rw [hs]
        show Inv (shrinkFrom 0 idx.entries)
        obtain ⟨hf2, hcont⟩ := shrinkFrom_spec idx.entries 0 h.2.1.chain' h.2.2 (by simp)
        have hwf' := forall₂_wf hf2
        exact ⟨by rw [forall₂_map_key hf2]; exact h.1, contig_pairwise hcont hwf', hwf'⟩
    · show Inv ([] : List IndexEntry)
      decide

theorem index_ops_preserve_invariants_witness :
    Inv ([⟨['a'], ⟨0, 2⟩⟩] : List IndexEntry) ∧
    Inv ((Index.insert_entry ⟨[⟨['a'], ⟨0, 2⟩⟩], []⟩ 3 ['b']).2.entries) :=
  ⟨by decide,
    (index_ops_preserve_invariants.2 ⟨[⟨['a'], ⟨0, 2⟩⟩], []⟩ 3 ['b'] (by decide)).1⟩

/-- C4: on an index satisfying the invariant, `alloc_entry(size, key)` is
strictly first-fit: the returned entry spans `[s, s+size)` where `s` is the
least offset whose interval `[s, s+size)` overlaps no existing entry — the
earliest sufficiently large gap wins (its start is taken), which subsumes the
three placement cases of the claim; the entry is spliced into the sequence in
byte order (`l1 ++ [e] ++ l2` with the old sequence `l1 ++ l2`); an empty
index places at `[0, size)`, and a front gap of length ≥ `size` places at
`[0, size)` as the new first element. -/
theorem alloc_first_fit (idx : Index) (n : Nat) (k : Key) (h : Inv idx.entries) :
    ∃ e idx', idx.alloc_entry n k = (e, idx') ∧ e.key = k ∧
      e.range.stop = e.range.start + n ∧
      Free idx.entries e.range.start n ∧
      (∀ t, t < e.range.start → ¬ Free idx.entries t n) ∧
      (∃ l1 l2, idx.entries = l1 ++ l2 ∧ idx'.entries = l1 ++ e :: l2) ∧
      (idx.entries = [] → e.range.start = 0) ∧
      (∀ e0 rest, idx.entries = e0 :: rest → n ≤ e0.range.start →
        e.range.start = 0 ∧ idx'.entries = e :: idx.entries) := by
  obtain ⟨e, idx', heq, hkey, hstop, hfree, hmin, hfile, l1, l2, hsplit, hents, hc1, hc2⟩ :=
    alloc_spec idx n k h.2.1 h.2.2
  refine ⟨e, idx', heq, hkey, hstop, hfree, hmin, ⟨l1, l2, hsplit, hents⟩, ?_, ?_⟩
  · intro hnil
    by_contra hne
    exact hmin 0 (by omega) (by rw [hnil]; intro x hx; cases hx)
  · intro e0 rest hent hfront
    have hcomp : idx.alloc_entry n k
        = (⟨k, ⟨0, n⟩⟩, Index.write_index { idx with entries := ⟨k, ⟨0, n⟩⟩ :: e0 :: rest }) := by
      unfold Index.alloc_entry
      rw [hent]
      simp [hfront]
    rw [heq] at hcomp
    have he : e = ⟨k, ⟨0, n⟩⟩ := congrArg Prod.fst hcomp
    have hidx' : idx' = Index.write_index { idx with entries := ⟨k, ⟨0, n⟩⟩ :: e0 :: rest } :=
      congrArg Prod.snd hcomp
    refine ⟨by rw [he], ?_⟩
    rw [hidx', hent, ← he]
    rfl

theorem alloc_first_fit_witness :
    Inv idxW.entries ∧
    (∃ e idx', idxW.alloc_entry 2 ['c'] = (e, idx') ∧ e.key = ['c'] ∧
      e.range.stop = e.range.start + 2 ∧
      Free idxW.entries e.range.start 2 ∧
      (∀ t, t < e.range.start → ¬ Free idxW.entries t 2) ∧
      (∃ l1 l2, idxW.entries = l1 ++ l2 ∧ idx'.entries = l1 ++ e :: l2) ∧
      (idxW.entries = [] → e.range.start = 0) ∧
      (∀ e0 rest, idxW.entries = e0 :: rest → 2 ≤ e0.range.start →
        e.range.start = 0 ∧ idx'.entries = e :: idxW.entries)) :=
  ⟨by decide, alloc_first_fit idxW 2 ['c'] (by decide)⟩

/-- C10: for a key absent from the index, `Index::remove_entry` returns `None`
and changes nothing — the entry sequence and the persisted index file are both
left untouched (the theorem holds for every `file` component, so `write_index`
cannot have run) — and `DataBase::remove` of an absent key leaves the whole
store state unchanged. -/
theorem remove_absent_noop (db : DataBase) (k : Key)
    (h : db.index.get_entry k = none) :
    db.index.remove_entry k = (none, db.index) ∧ db.remove k = db := by
  have hfk : findKey k db.index.entries = none := by
    unfold Index.get_entry at h
    rw [find?_eq_findKey] at h
    cases hf : findKey k db.index.entries with
    | none => rfl
    | some p => rw [hf] at h; cases h
  have h1 : db.index.remove_entry k = (none, db.index) := by
    unfold Index.remove_entry
    rw [hfk]
  refine ⟨h1, ?_⟩
  unfold DataBase.remove
  rw [h1]

theorem remove_absent_noop_witness :
    (⟨⟨[⟨['a'], ⟨0, 2⟩⟩], ['x']⟩, [7, 7]⟩ : DataBase).index.get_entry ['b'] = none ∧
    ((⟨⟨[⟨['a'], ⟨0, 2⟩⟩], ['x']⟩, [7, 7]⟩ : DataBase).index.remove_entry ['b']
        = (none, (⟨⟨[⟨['a'], ⟨0, 2⟩⟩], ['x']⟩, [7, 7]⟩ : DataBase).index) ∧
      (⟨⟨[⟨['a'], ⟨0, 2⟩⟩], ['x']⟩, [7, 7]⟩ : DataBase).remove ['b']
        = (⟨⟨[⟨['a'], ⟨0, 2⟩⟩], ['x']⟩, [7, 7]⟩ : DataBase)) :=
  ⟨by decide, remove_absent_noop _ ['b'] (by decide)⟩

/-- C5: on a well-formed store, inserting for an existing key `old` with a
requested size ≤ `old.size()` replaces the entry in place: the new entry is
`[old.start, old.start + size)` at the old list position, its end stays within
the old range (the trailing `old.size() - size` bytes become an implicit,
derived gap), and the data file's length is unchanged by the insert. -/
theorem insert_shrink_in_place (db : DataBase) (k : Key) (v : List Byte) (old : IndexEntry)
    (h : DBWF db) (hold : db.index.get_entry k = some old) (hsz : v.length ≤ old.size) :
    ∃ e idx', db.index.insert_entry v.length k = (e, idx') ∧
      e.range.start = old.range.start ∧
      e.range.stop = old.range.start + v.length ∧
      e.range.stop ≤ old.range.stop ∧
      (∃ l1 l2, db.index.entries = l1 ++ old :: l2 ∧ idx'.entries = l1 ++ e :: l2) ∧
      (db.insert k v).buf.length = db.buf.length := by
  obtain ⟨i, hfk⟩ := get_entry_some_findKey hold
  have hg : ¬ old.size < v.length := by omega
  have hcomp := insert_entry_eq_fit hfk hg
  obtain ⟨holdk, l1, l2, hsplit, hlen, hl1k⟩ := findKey_decomp hfk
  have hmemold : old ∈ db.index.entries := by
    rw [hsplit]
    exact List.mem_append_right _ (by simp)
  have hwfold : entryWF old := h.1.2.2 old hmemold
  unfold entryWF at hwfold
  unfold IndexEntry.size at hsz
  refine ⟨⟨k, ⟨old.range.start, old.range.start + v.length⟩⟩, _, hcomp, rfl, rfl, ?_, ?_, ?_⟩
  · simp
    omega
  · refine ⟨l1, l2, hsplit, ?_⟩
    show db.index.entries.set i _ = _
    rw [hsplit, ← hlen, set_append_len]
  · have hins : db.insert k v
        = DataBase.write_at
            { db with index := (db.index.insert_entry v.length k).2 }
            (db.index.insert_entry v.length k).1.range.start v := by
      simp only [DataBase.insert]
    rw [hins, hcomp, write_at_buf_length]
    have hb := h.2 old hmemold
    simp
    omega

theorem insert_shrink_in_place_witness :
    DBWF dbW ∧ dbW.index.get_entry ['b'] = some entB ∧ 1 ≤ entB.size ∧
    (∃ e idx', dbW.index.insert_entry 1 ['b'] = (e, idx') ∧
      e.range.start = entB.range.start ∧
      e.range.stop = entB.range.start + 1 ∧
      e.range.stop ≤ entB.range.stop ∧
      (∃ l1 l2, dbW.index.entries = l1 ++ entB :: l2 ∧ idx'.entries = l1 ++ e :: l2) ∧
      (dbW.insert ['b'] [9]).buf.length = dbW.buf.length) :=
  ⟨by decide, by decide, by decide,
    insert_shrink_in_place dbW ['b'] [9] entB (by decide) (by decide) (by decide)⟩

/-- C9: on a well-formed store, `DataBase::insert(k, v)` is a frame for every
other live key `k'`: `k'`'s directory entry is unchanged, the bytes of `k'`'s
range are unchanged (the write lands in a range disjoint from every
still-referenced range), and `get(k')` returns the same value as before. -/
theorem insert_frame (db : DataBase) (k k' : Key) (v : List Byte) (e' : IndexEntry)
    (h : DBWF db) (hne : k' ≠ k) (he' : db.index.get_entry k' = some e') :
    (db.insert k v).index.get_entry k' = some e' ∧
    slice (db.insert k v).buf e'.range.start e'.size = slice db.buf e'.range.start e'.size ∧
    (db.insert k v).get k' = db.get k' := by
  obtain ⟨e, idx', heq, hkey, hstop, hinv, hfind, hframe, hdisj⟩ :=
    insert_entry_spec db.index v.length k h.1
  have hins : db.insert k v = DataBase.write_at { db with index := idx' } e.range.start v := by
    simp only [DataBase.insert, heq]
  unfold Index.get_entry at he'
  have hge' : idx'.entries.find? (fun x => x.key = k') = some e' := by
    rw [hframe k' hne]
    exact he'
  have hmem' : e' ∈ db.index.entries := List.mem_of_find?_eq_some he'
  have hk'e : e'.key = k' := by
    have := List.find?_some he'
    simpa using this
  have hdj := hdisj e' hmem' (by rw [hk'e]; exact hne)
  have hwf' : entryWF e' := h.1.2.2 e' hmem'
  unfold entryWF at hwf'
  have hstopsize : e'.range.start + e'.size = e'.range.stop := by
    unfold IndexEntry.size
    omega
  have hbound : e'.range.start + e'.size ≤ db.buf.length := by
    have := h.2 e' hmem'
    omega
  have hwrange : e'.range.stop ≤ e.range.start ∨ e.range.start + v.length ≤ e'.range.start := by
    rcases hdj.2 with h1 | h1
    · exact Or.inl h1
    · right; omega
  have hslice : slice (db.insert k v).buf e'.range.start e'.size
      = slice db.buf e'.range.start e'.size := by
    rw [hins]
    apply slice_congr
    intro j hj1 hj2
    show (DataBase.write_at { db with index := idx' } e.range.start v).buf[j]?
        = db.buf[j]?
    rcases hwrange with hw | hw
    · refine write_at_getElem_lo v (by omega) ?_
      show j < db.buf.length
      omega
    · exact write_at_getElem_hi v (by omega)
  have hge : (db.insert k v).index.get_entry k' = some e' := by
    rw [hins, write_at_index]
    exact hge'
  refine ⟨hge, hslice, ?_⟩
  unfold DataBase.get
  rw [hge]
  show (db.insert k v).read_at e'.range.start e'.size = _
  rw [show db.index.get_entry k' = some e' from he']
  show _ = db.read_at e'.range.start e'.size
  have hlen2 : e'.range.start + e'.size ≤ (db.insert k v).buf.length := by
    rw [hins, write_at_buf_length]
    simp
    omega
  rw [read_at_eq_slice hlen2, read_at_eq_slice hbound, hslice]

theorem insert_frame_witness :
    DBWF dbW ∧ (['a'] : Key) ≠ ['b'] ∧ dbW.index.get_entry ['a'] = some entA ∧
    ((dbW.insert ['b'] [9, 9, 9]).index.get_entry ['a'] = some entA ∧
      slice (dbW.insert ['b'] [9, 9, 9]).buf entA.range.start entA.size
        = slice dbW.buf entA.range.start entA.size ∧
      (dbW.insert ['b'] [9, 9, 9]).get ['a'] = dbW.get ['a']) :=
  ⟨by decide, by decide, by decide,
    insert_frame dbW ['b'] ['a'] [9, 9, 9] entA (by decide) (by decide) (by decide)⟩

/-! ## The relocation loop of `shrink` -/

theorem copyEntries_spec :
    ∀ (olds : List IndexEntry) (news : List IndexEntry) (db : DataBase) (buf0 : List Byte)
      (p lo : Nat),
      List.Forall₂ entryRel news olds →
      Contig p news →
      olds.Pairwise chainLE →
      (∀ o ∈ olds, entryWF o) →
      (∀ o ∈ olds, lo ≤ o.range.start) →
      (∀ o ∈ olds, o.range.stop ≤ buf0.length) →
      db.buf.length = buf0.length →
      (∀ j, lo ≤ j → db.buf[j]? = buf0[j]?) →
      ∃ db2, copyEntries db (olds.zip news) = some db2 ∧
        db2.index = db.index ∧
        db2.buf.length = buf0.length ∧
        (∀ j, j < p → db2.buf[j]? = db.buf[j]?) ∧
        (∀ o n2, (o, n2) ∈ olds.zip news →
          slice db2.buf n2.range.start n2.size = slice buf0 o.range.start o.size) := by
  intro olds
  induction olds with
  | nil =>
    intro news db buf0 p lo hf2 _ _ _ _ _ hlen _
    cases hf2
    exact ⟨db, rfl, rfl, hlen, fun j _ => rfl, by simp⟩
  | cons o os ih =>
    intro news db buf0 p lo hf2 hcont hp hwf hlo hstop hlen hagree
    cases hf2 with
    | cons hrel hrest =>
      rename_i n2 ns
      obtain ⟨hkeyeq, hsle, hstople, hstopeq⟩ := hrel
      obtain ⟨hn2start, hcont'⟩ := hcont
      have hwfo : entryWF o := hwf o (by simp)
      unfold entryWF at hwfo
      have hostop : o.range.stop = o.range.start + o.size := by
        unfold IndexEntry.size
        omega
      have hsize2 : n2.size = o.size := by
        unfold IndexEntry.size at hstopeq ⊢
        omega
      have hloo : lo ≤ o.range.start := hlo o (by simp)
      have hstopo : o.range.stop ≤ buf0.length := hstop o (by simp)
      have hread : db.read_at o.range.start o.size = some (slice db.buf o.range.start o.size) :=
        read_at_eq_slice (by omega)
      have hreadval : slice db.buf o.range.start o.size = slice buf0 o.range.start o.size := by
        apply slice_congr
        intro j hj1 hj2
        exact hagree j (by omega)
      have hptail : os.Pairwise chainLE := (List.pairwise_cons.mp hp).2
      have hwftail : ∀ x ∈ os, entryWF x := fun x hx => hwf x (List.mem_cons_of_mem _ hx)
      have hlotail : ∀ x ∈ os, o.range.stop ≤ x.range.start := by
        intro x hx
        exact (List.pairwise_cons.mp hp).1 x hx
      have hstoptail : ∀ x ∈ os, x.range.stop ≤ buf0.length :=
        fun x hx => hstop x (List.mem_cons_of_mem _ hx)
      by_cases hmove : o.range.start ≠ n2.range.start
      · -- the entry moved: read the old bytes, write them at the new start
        set s : List Byte := slice buf0 o.range.start o.size with hs
        have hslen : s.length = o.size := by
          rw [hs, slice_length]
          omega
        set db1 : DataBase := db.write_at n2.range.start s with hdb1
        have hwritten : n2.range.start + s.length = n2.range.stop := by
          rw [hslen]
          omega
        have hlen1 : db1.buf.length = buf0.length := by
          rw [hdb1, write_at_buf_length]
          omega
        have hagree1 : ∀ j, o.range.stop ≤ j → db1.buf[j]? = buf0[j]? := by
          intro j hj
          rw [hdb1, write_at_getElem_hi s (by omega)]
          exact hagree j (by omega)
        obtain ⟨db2, hcopy, hidx2, hlen2, hlow2, hslices2⟩ :=
          ih ns db1 buf0 n2.range.stop o.range.stop hrest hcont' hptail hwftail
            hlotail hstoptail hlen1 hagree1
        refine ⟨db2, ?_, ?_, hlen2, ?_, ?_⟩
        · rw [List.zip_cons_cons]
          unfold copyEntries
          rw [if_pos hmove, hread, hreadval]
          exact hcopy
        · rw [hidx2, hdb1, write_at_index]
        · intro j hj
          rw [hlow2 j (by omega), hdb1]
          apply write_at_getElem_lo s (by omega)
          show j < db.buf.length
          omega
        · intro o' n' hmem
          rw [List.zip_cons_cons, List.mem_cons] at hmem
          rcases hmem with heq | hmem
          · have ho : o' = o := congrArg Prod.fst heq
            have hn : n' = n2 := congrArg Prod.snd heq
            rw [ho, hn]
            have hss : slice db2.buf n2.range.start n2.size
                = slice db1.buf n2.range.start n2.size := by
              apply slice_congr
              intro j hj1 hj2
              apply hlow2
              unfold IndexEntry.size at hsize2 hj2
              omega
            rw [hss, hsize2, ← hslen, hdb1, slice_write_at_self, hslen]
          · exact hslices2 o' n' hmem
      · -- the entry did not move: nothing to copy for it
        push_neg at hmove
        have hn2stop : n2.range.stop = o.range.stop := by omega
        obtain ⟨db2, hcopy, hidx2, hlen2, hlow2, hslices2⟩ :=
          ih ns db buf0 n2.range.stop o.range.stop hrest hcont' hptail hwftail
            hlotail hstoptail hlen (fun j hj => hagree j (by omega))
        refine ⟨db2, ?_, hidx2, hlen2, ?_, ?_⟩
        · rw [List.zip_cons_cons]
          unfold copyEntries
          rw [if_neg (by omega)]
          exact hcopy
        · intro j hj
          exact hlow2 j (by omega)
        · intro o' n' hmem
          rw [List.zip_cons_cons, List.mem_cons] at hmem
          rcases hmem with heq | hmem
          · have ho : o' = o := congrArg Prod.fst heq
            have hn : n' = n2 := congrArg Prod.snd heq
            rw [ho, hn]
            have hss : slice db2.buf n2.range.start n2.size
                = slice db.buf n2.range.start n2.size := by
              apply slice_congr
              intro j hj1 hj2
              apply hlow2
              unfold IndexEntry.size at hsize2 hj2
              omega
            rw [hss, hmove, hsize2]
            apply slice_congr
            intro j hj1 hj2
            exact hagree j (by omega)
          · exact hslices2 o' n' hmem

theorem forall₂_getLast? {ns os : List IndexEntry} (h : List.Forall₂ entryRel ns os) :
    ∀ a, ns.getLast? = some a → ∃ b, os.getLast? = some b ∧ entryRel a b := by
  induction h with
  | nil => intro a ha; cases ha
  | cons hr hrest ih =>
    rename_i x o ns' os'
    intro a ha
    cases hrest with
    | nil =>
      simp only [List.getLast?_singleton, Option.some.injEq] at ha
      exact ⟨o, by simp, ha ▸ hr⟩
    | cons hr2 hrest2 =>
      rw [List.getLast?_cons_cons] at ha
      obtain ⟨b, hb, hrel⟩ := ih a ha
      exact ⟨b, by rw [List.getLast?_cons_cons]; exact hb, hrel⟩

theorem copyEntries_refl (db : DataBase) :
    ∀ l : List IndexEntry, copyEntries db (l.zip l) = some db := by
  intro l
  induction l with
  | nil => rfl
  | cons e r ih =>
    rw [List.zip_cons_cons]
    unfold copyEntries
    rw [if_neg (by simp)]
    exact ih

/-- What `DataBase::shrink` does on a well-formed store with a non-empty
directory: it returns a store whose directory is the fully compacted
(`shrinkFrom 0`) sequence (persisted), whose file length is the sum of the
live sizes, and on which every key retrieves the same value as before. -/
theorem shrink_spec (db : DataBase) (h : DBWF db) (hne : db.index.entries ≠ []) :
    ∃ db', db.shrink = some db' ∧
      db'.index.entries = shrinkFrom 0 db.index.entries ∧
      db'.index.file = index_to_string db'.index.entries ∧
      Contig 0 db'.index.entries ∧
      (∀ e ∈ db'.index.entries, entryWF e) ∧
      db'.index.entries.map IndexEntry.key = db.index.entries.map IndexEntry.key ∧
      db'.index.entries.map IndexEntry.size = db.index.entries.map IndexEntry.size ∧
      db'.buf.length = (db.index.entries.map IndexEntry.size).sum ∧
      (∀ k, db'.get k = db.get k) := by
  have hempf : db.index.entries.isEmpty = false := by
    cases hent : db.index.entries with
    | nil => exact absurd hent hne
    | cons e0 rest => simp
  have hcond : ¬ db.index.entries.isEmpty = true := by rw [hempf]; simp
  obtain ⟨hf2, hcont⟩ :=
    shrinkFrom_spec db.index.entries 0 h.1.2.1.chain' h.1.2.2 (by simp)
  set news := shrinkFrom 0 db.index.entries with hnews
  have hwfn := forall₂_wf hf2
  have hshr : db.index.shrink_entries
      = (db.index.entries,
          Index.write_index { db.index with entries := news }) := by
    unfold Index.shrink_entries
    simp [hempf]
  have hkeys := forall₂_map_key hf2
  have hsizes := forall₂_map_size hf2
  obtain ⟨db2, hcopy, hidx2, hlen2, hlow2, hslices⟩ :=
    copyEntries_spec db.index.entries news
      ⟨⟨news, index_to_string news⟩, db.buf⟩ db.buf 0 0
      hf2 hcont h.1.2.1 h.1.2.2 (by simp) h.2 rfl (fun j _ => rfl)
  have hnewsne : news ≠ [] := by
    intro hc
    have hl := hf2.length_eq
    rw [hc] at hl
    cases hent : db.index.entries with
    | nil => exact hne hent
    | cons e0 rest => rw [hent] at hl; simp at hl
  obtain ⟨lastE, hlast⟩ : ∃ x, news.getLast? = some x :=
    ⟨_, List.getLast?_eq_getLast _ hnewsne⟩
  have hlastsum : lastE.range.stop = (db.index.entries.map IndexEntry.size).sum := by
    have := contig_getLast_stop hcont hwfn lastE hlast
    rw [hsizes] at this
    omega
  obtain ⟨lastO, hlastO, hrellast⟩ := forall₂_getLast? hf2 lastE hlast
  have hlastOmem : lastO ∈ db.index.entries := by
    have hmem := List.getLast?_eq_getLast (l := db.index.entries) hne
    rw [hlastO] at hmem
    have heq := Option.some.injEq _ _ |>.mp hmem
    rw [heq]
    exact List.getLast_mem hne
  have hlastObound : lastO.range.stop ≤ db.buf.length := h.2 lastO hlastOmem
  have hlastbound : lastE.range.stop ≤ db.buf.length := by
    obtain ⟨-, -, hle, -⟩ := hrellast
    omega
  have hsh : db.shrink = some (db2.set_buf_len lastE.range.stop) := by
    unfold DataBase.shrink
    rw [if_neg hcond]
    simp only [hshr, Index.write_index]
    rw [hcopy, hlast]
  have hlen2' : lastE.range.stop ≤ db2.buf.length := by omega
  set db' : DataBase := db2.set_buf_len lastE.range.stop with hdb'
  have hidx' : db'.index = ⟨news, index_to_string news⟩ := by
    rw [hdb', set_buf_len_index, hidx2]
  have hents' : db'.index.entries = news := by rw [hidx']
  have hbuf'len : db'.buf.length = (db.index.entries.map IndexEntry.size).sum := by
    rw [hdb', set_buf_len_buf_length]
    exact hlastsum
  have hbuf'take : db'.buf = db2.buf.take lastE.range.stop := by
    rw [hdb', set_buf_len_buf_of_le hlen2']
  refine ⟨db', hsh, hents', by rw [hidx'], by rw [hents']; exact hcont,
    by rw [hents']; exact hwfn, by rw [hents']; exact hkeys,
    by rw [hents']; exact hsizes, hbuf'len, ?_⟩
  intro k
  unfold DataBase.get Index.get_entry
  rw [hents']
  cases hfindo : db.index.entries.find? (fun e => e.key = k) with
  | none =>
    rw [(forall₂_find? k hf2).1 hfindo]
  | some o =>
    obtain ⟨x, hfn, hrel, hzip⟩ := (forall₂_find? k hf2).2 o hfindo
    rw [hfn]
    show db'.read_at x.range.start x.size = db.read_at o.range.start o.size
    have hmemo : o ∈ db.index.entries := List.mem_of_find?_eq_some hfindo
    have hwfo := h.1.2.2 o hmemo
    unfold entryWF at hwfo
    have hostop : o.range.start + o.size = o.range.stop := by
      unfold IndexEntry.size
      omega
    have hobound := h.2 o hmemo
    obtain ⟨-, -, hxle, hxstop⟩ := hrel
    have hxmem : x ∈ news := List.mem_of_find?_eq_some hfn
    have hxlast := contig_stop_le_getLast hcont hwfn x hxmem lastE hlast
    have hxsize : x.size = o.size := by
      unfold IndexEntry.size
      have hwfx := hwfn x hxmem
      unfold entryWF at hwfx
      omega
    have hxread : x.range.start + x.size ≤ db'.buf.length := by
      rw [hdb', set_buf_len_buf_length]
      unfold IndexEntry.size
      have hwfx := hwfn x hxmem
      unfold entryWF at hwfx
      omega
    rw [read_at_eq_slice hxread, read_at_eq_slice (by omega)]
    congr 1
    have hs1 : slice db'.buf x.range.start x.size = slice db2.buf x.range.start x.size := by
      apply slice_congr
      intro j hj1 hj2
      rw [hbuf'take, List.getElem?_take, if_pos (by
        unfold IndexEntry.size at hxsize hj2
        omega)]
    rw [hs1]
    exact hslices o x hzip

/-- C2: on a well-formed store with a non-empty index, `shrink()` succeeds and
afterwards the index is fully contiguous from offset 0 (`Contig 0`: the first
entry starts at 0 and each entry starts where its predecessor ends), every
entry's key and size are unchanged in order, every key retrieves the same
value as before the shrink, and `buf_len()` equals the sum of all live entry
sizes. -/
theorem shrink_compacts (db : DataBase) (h : DBWF db) (hne : db.index.entries ≠ []) :
    ∃ db', db.shrink = some db' ∧
      Contig 0 db'.index.entries ∧
      db'.index.entries.map IndexEntry.key = db.index.entries.map IndexEntry.key ∧
      db'.index.entries.map IndexEntry.size = db.index.entries.map IndexEntry.size ∧
      (∀ k, db'.get k = db.get k) ∧
      db'.buf_len = (db.index.entries.map IndexEntry.size).sum := by
  obtain ⟨db', hsh, -, -, hcont, -, hkeys, hsizes, hblen, hget⟩ := shrink_spec db h hne
  exact ⟨db', hsh, hcont, hkeys, hsizes, hget, hblen⟩

theorem shrink_compacts_witness :
    DBWF dbW ∧ dbW.index.entries ≠ [] ∧
    (∃ db', dbW.shrink = some db' ∧
      Contig 0 db'.index.entries ∧
      db'.index.entries.map IndexEntry.key = dbW.index.entries.map IndexEntry.key ∧
      db'.index.entries.map IndexEntry.size = dbW.index.entries.map IndexEntry.size ∧
      (∀ k, db'.get k = dbW.get k) ∧
      db'.buf_len = (dbW.index.entries.map IndexEntry.size).sum) :=
  ⟨by decide, by decide, shrink_compacts dbW (by decide) (by decide)⟩

/-- C7: on a well-formed store, calling `shrink()` twice in a row with no
intervening mutation is a no-op on the second call: the whole store state —
in particular the data file's length and the directory's entry sequence — is
unchanged by the second shrink. -/
theorem shrink_idempotent (db db' : DataBase) (h : DBWF db) (h1 : db.shrink = some db') :
    db'.shrink = some db' := by
  by_cases hne : db.index.entries = []
  · have hclear : db.shrink = some db.clear_all := by
      unfold DataBase.shrink
      rw [if_pos (by rw [hne]; rfl)]
    have hdb' : db' = db.clear_all := by
      rw [hclear] at h1
      exact (Option.some.injEq _ _ |>.mp h1).symm
    have hcl : db.clear_all = ⟨⟨[], []⟩, []⟩ := by
      unfold DataBase.clear_all DataBase.set_buf_len Index.clear_all
      simp
    rw [hdb', hcl]
    decide
  · obtain ⟨db'', hsh, hents, hfile, hcont, hwfn, hkeys, hsizes, hblen, hget⟩ :=
      shrink_spec db h hne
    have heqd : db'' = db' := by
      rw [hsh] at h1
      exact Option.some.injEq _ _ |>.mp h1
    subst heqd
    have hne' : db''.index.entries ≠ [] := by
      intro hc
      rw [hc] at hkeys
      cases hent : db.index.entries with
      | nil => exact hne hent
      | cons e0 rest => rw [hent] at hkeys; simp at hkeys
    have hempf' : db''.index.entries.isEmpty = false := by
      cases hent : db''.index.entries with
      | nil => exact absurd hent hne'
      | cons e0 rest => simp
    have hcond' : ¬ db''.index.entries.isEmpty = true := by rw [hempf']; simp
    have hfix : shrinkFrom 0 db''.index.entries = db''.index.entries :=
      shrinkFrom_of_contig hcont
    have hwidx : Index.write_index db''.index = db''.index := by
      unfold Index.write_index
      rw [← hfile]
    have hshr' : db''.index.shrink_entries = (db''.index.entries, db''.index) := by
      have hw2 : Index.write_index { db''.index with entries := shrinkFrom 0 db''.index.entries }
          = db''.index := by
        rw [hfix]
        show Index.write_index db''.index = db''.index
        exact hwidx
      unfold Index.shrink_entries
      simp [hempf', hw2]
    obtain ⟨lastE, hlast⟩ : ∃ x, db''.index.entries.getLast? = some x :=
      ⟨_, List.getLast?_eq_getLast _ hne'⟩
    have hstopbuf : lastE.range.stop = db''.buf.length := by
      have h1 := contig_getLast_stop hcont hwfn lastE hlast
      rw [hsizes] at h1
      omega
    unfold DataBase.shrink
    rw [if_neg hcond']
    simp only [hshr']
    rw [copyEntries_refl db'' db''.index.entries, hlast]
    show some (db''.set_buf_len lastE.range.stop) = some db''
    rw [hstopbuf, set_buf_len_self]

theorem shrink_idempotent_witness :
    DBWF dbW ∧ dbW.shrink = some dbWs ∧ dbWs.shrink = some dbWs :=
  ⟨by decide, by decide, shrink_idempotent dbW dbWs (by decide) (by decide)⟩

/-! ## Serialization lemmas (decimal digits, splitting, trimming) -/

theorem natCharsAux_congr : ∀ (f1 f2 n : Nat), n < f1 → n < f2 →
    natCharsAux f1 n = natCharsAux f2 n := by
  intro f1
  induction f1 with
  | zero => intro f2 n h; omega
  | succ a ih =>
    intro f2 n h1 h2
    cases f2 with
    | zero => omega
    | succ b =>
      unfold natCharsAux
      by_cases h10 : n < 10
      · simp [h10]
      · simp only [if_neg h10]
        rw [ih b (n / 10) (by omega) (by omega)]

theorem natChars_lt {n : Nat} (h : n < 10) : natChars n = [digitChar n] := by
  unfold natChars natCharsAux
  simp [h]

theorem natChars_ge {n : Nat} (h : 10 ≤ n) :
    natChars n = natChars (n / 10) ++ [digitChar (n % 10)] := by
  show natCharsAux (n + 1) n = natCharsAux (n / 10 + 1) (n / 10) ++ [digitChar (n % 10)]
  conv_lhs => unfold natCharsAux
  rw [if_neg (by omega)]
  rw [natCharsAux_congr n (n / 10 + 1) (n / 10) (by omega) (by omega)]

theorem digitChar_digit {d : Nat} (h : d < 10) : isDigitC (digitChar d) = true := by
  interval_cases d <;> decide

theorem digitChar_toNat {d : Nat} (h : d < 10) : (digitChar d).toNat = 48 + d := by
  interval_cases d <;> decide

theorem natChars_all_digits : ∀ n : Nat, ∀ c ∈ natChars n, isDigitC c = true := by
  intro n
  induction n using Nat.strong_induction_on with
  | _ n ih =>
    by_cases h : n < 10
    · rw [natChars_lt h]
      intro c hc
      simp at hc
      subst hc
      exact digitChar_digit h
    · rw [natChars_ge (by omega)]
      intro c hc
      rcases List.mem_append.mp hc with hc | hc
      · exact ih (n / 10) (by omega) c hc
      · simp at hc
        subst hc
        exact digitChar_digit (by omega)

theorem natChars_ne_nil (n : Nat) : natChars n ≠ [] := by
  by_cases h : n < 10
  · rw [natChars_lt h]; simp
  · rw [natChars_ge (by omega)]; simp

theorem foldl_natChars : ∀ n acc : Nat,
    (natChars n).foldl (fun a c => a * 10 + (c.toNat - 48)) acc
      = acc * 10 ^ (natChars n).length + n := by
  intro n
  induction n using Nat.strong_induction_on with
  | _ n ih =>
    intro acc
    by_cases h : n < 10
    · rw [natChars_lt h]
      simp [digitChar_toNat h]
    · rw [natChars_ge (by omega), List.foldl_append,
        ih (n / 10) (by omega) acc]
      simp [digitChar_toNat (show n % 10 < 10 by omega)]
      rw [pow_succ]
      have hdm : n / 10 * 10 + n % 10 = n := by omega
      calc (acc * 10 ^ (natChars (n / 10)).length + n / 10) * 10 + n % 10
          = acc * (10 ^ (natChars (n / 10)).length * 10) + (n / 10 * 10 + n % 10) := by
            ring
        _ = acc * (10 ^ (natChars (n / 10)).length * 10) + n := by rw [hdm]

theorem parseNat_natChars (n : Nat) : parseNat (natChars n) = some n := by
  unfold parseNat
  rw [if_pos ⟨natChars_ne_nil n, List.all_eq_true.mpr (natChars_all_digits n)⟩]
  rw [foldl_natChars n 0]
  simp

theorem digit_not_wsp {c : Char} (h : isDigitC c = true) : isWsp c = false := by
  unfold isDigitC at h
  simp only [Bool.and_eq_true, decide_eq_true_eq] at h
  have h1 : c ≠ ' ' := fun hc => by rw [hc] at h; exact absurd h (by decide)
  have h2 : c ≠ '\t' := fun hc => by rw [hc] at h; exact absurd h (by decide)
  have h3 : c ≠ '\n' := fun hc => by rw [hc] at h; exact absurd h (by decide)
  have h4 : c ≠ '\r' := fun hc => by rw [hc] at h; exact absurd h (by decide)
  unfold isWsp
  simp [h1, h2, h3, h4]

theorem digit_ne {c : Char} (h : isDigitC c = true) :
    c ≠ '=' ∧ c ≠ '_' ∧ c ≠ '\n' := by
  unfold isDigitC at h
  simp only [Bool.and_eq_true, decide_eq_true_eq] at h
  refine ⟨?_, ?_, ?_⟩
  · intro hc; rw [hc] at h; exact absurd h (by decide)
  · intro hc; rw [hc] at h; exact absurd h (by decide)
  · intro hc; rw [hc] at h; exact absurd h (by decide)

theorem splitOnChar_not_mem {c : Char} : ∀ {xs : List Char}, c ∉ xs →
    splitOnChar c xs = [xs] := by
  intro xs
  induction xs with
  | nil => intro _; rfl
  | cons x t ih =>
    intro h
    rw [List.mem_cons] at h
    push_neg at h
    unfold splitOnChar
    rw [if_neg (fun hc => h.1 hc.symm)]
    rw [ih h.2]

theorem splitOnChar_append {c : Char} : ∀ {xs : List Char} (ys : List Char), c ∉ xs →
    splitOnChar c (xs ++ c :: ys) = xs :: splitOnChar c ys := by
  intro xs
  induction xs with
  | nil =>
    intro ys _
    show splitOnChar c (c :: ys) = [] :: splitOnChar c ys
    conv_lhs => unfold splitOnChar
    rw [if_pos rfl]
  | cons x t ih =>
    intro ys h
    rw [List.mem_cons] at h
    push_neg at h
    show splitOnChar c (x :: (t ++ c :: ys)) = (x :: t) :: splitOnChar c ys
    conv_lhs => unfold splitOnChar
    rw [if_neg (fun hc => h.1 hc.symm), ih ys h.2]

theorem trimEnd_append_newline {s : List Char} {lc : Char}
    (hlast : s.getLast? = some lc) (hwsp : isWsp lc = false) :
    trimEnd (s ++ ['\n']) = s := by
  unfold trimEnd
  rw [List.reverse_append]
  show List.reverse (List.dropWhile isWsp ('\n' :: s.reverse)) = s
  rw [List.dropWhile_cons]
  rw [show isWsp '\n' = true from rfl, if_pos rfl]
  cases hrev : s.reverse with
  | nil =>
    rw [List.reverse_eq_nil_iff.mp hrev] at hlast
    cases hlast
  | cons a t =>
    have ha : a = lc := by
      have hh := List.head?_reverse s
      rw [hrev, hlast] at hh
      simpa using hh
    rw [List.dropWhile_cons, ha, hwsp]
    show List.reverse (lc :: t) = s
    rw [← ha, ← hrev, List.reverse_reverse]

theorem entryLine_eq (e : IndexEntry) : entryLine e = entryBody e ++ ['\n'] := by
  unfold entryLine entryBody
  simp

theorem index_to_string_eq_inter : ∀ l : List IndexEntry, l ≠ [] →
    index_to_string l = interBody l ++ ['\n'] := by
  intro l
  induction l with
  | nil => intro h; exact absurd rfl h
  | cons e rest ih =>
    intro _
    cases rest with
    | nil =>
      show entryLine e ++ [] = entryBody e ++ ['\n']
      rw [entryLine_eq, List.append_nil]
    | cons r t =>
      show entryLine e ++ index_to_string (r :: t)
          = (entryBody e ++ '\n' :: interBody (r :: t)) ++ ['\n']
      rw [ih (by simp), entryLine_eq]
      simp

theorem natChars_getLast_digit (n : Nat) :
    ∃ c, (natChars n).getLast? = some c ∧ isDigitC c = true := by
  have hne := natChars_ne_nil n
  refine ⟨(natChars n).getLast hne, List.getLast?_eq_getLast _ hne, ?_⟩
  exact natChars_all_digits n _ (List.getLast_mem hne)

theorem entryBody_getLast_digit (e : IndexEntry) :
    ∃ c, (entryBody e).getLast? = some c ∧ isDigitC c = true := by
  obtain ⟨d, hd, hdig⟩ := natChars_getLast_digit e.range.stop
  refine ⟨d, ?_, hdig⟩
  have h1 : ('_' :: natChars e.range.stop).getLast? = some d := by
    show (['_'] ++ natChars e.range.stop).getLast? = some d
    rw [List.getLast?_append, hd]
    rfl
  have h2 : (natChars e.range.start ++ '_' :: natChars e.range.stop).getLast? = some d := by
    rw [List.getLast?_append, h1]
    rfl
  have h3 : ('=' :: (natChars e.range.start ++ '_' :: natChars e.range.stop)).getLast?
      = some d := by
    show (['='] ++ (natChars e.range.start ++ '_' :: natChars e.range.stop)).getLast? = some d
    rw [List.getLast?_append, h2]
    rfl
  unfold entryBody
  rw [List.getLast?_append, h3]
  rfl

theorem interBody_getLast_digit : ∀ l : List IndexEntry, l ≠ [] →
    ∃ c, (interBody l).getLast? = some c ∧ isDigitC c = true := by
  intro l
  induction l with
  | nil => intro h; exact absurd rfl h
  | cons e rest ih =>
    intro _
    cases rest with
    | nil => exact entryBody_getLast_digit e
    | cons r t =>
      obtain ⟨d, hd, hdig⟩ := ih (by simp)
      refine ⟨d, ?_, hdig⟩
      show (entryBody e ++ '\n' :: interBody (r :: t)).getLast? = some d
      have h1 : ('\n' :: interBody (r :: t)).getLast? = some d := by
        show (['\n'] ++ interBody (r :: t)).getLast? = some d
        rw [List.getLast?_append, hd]
        rfl
      rw [List.getLast?_append, h1]
      rfl

theorem newline_not_mem_entryBody {e : IndexEntry} (h : ∀ c ∈ e.key, c ≠ '\n') :
    '\n' ∉ entryBody e := by
  intro hmem
  unfold entryBody at hmem
  rcases List.mem_append.mp hmem with hk | hrest
  · exact absurd rfl (h _ hk)
  · rcases List.mem_cons.mp hrest with he | hrest
    · exact absurd he (by decide)
    · rcases List.mem_append.mp hrest with hd | hrest
      · exact absurd rfl (digit_ne (natChars_all_digits _ _ hd)).2.2
      · rcases List.mem_cons.mp hrest with he | hd
        · exact absurd he (by decide)
        · exact absurd rfl (digit_ne (natChars_all_digits _ _ hd)).2.2

theorem parseLine_entryBody {e : IndexEntry}
    (h : ∀ c ∈ e.key, c ≠ '=' ∧ c ≠ '_' ∧ c ≠ '\n') :
    parseLine (entryBody e) = some e := by
  have hkeq : '=' ∉ e.key := fun hc => (h _ hc).1 rfl
  have hrest_ne : '=' ∉ natChars e.range.start ++ '_' :: natChars e.range.stop := by
    intro hm
    rcases List.mem_append.mp hm with hd | hm
    · exact absurd rfl (digit_ne (natChars_all_digits _ _ hd)).1
    · rcases List.mem_cons.mp hm with he | hd
      · exact absurd he (by decide)
      · exact absurd rfl (digit_ne (natChars_all_digits _ _ hd)).1
  have h1 : splitOnChar '=' (entryBody e)
      = [e.key, natChars e.range.start ++ '_' :: natChars e.range.stop] := by
    unfold entryBody
    rw [splitOnChar_append _ hkeq, splitOnChar_not_mem hrest_ne]
  have hus1 : '_' ∉ natChars e.range.start := fun hm =>
    absurd rfl (digit_ne (natChars_all_digits _ _ hm)).2.1
  have hus2 : '_' ∉ natChars e.range.stop := fun hm =>
    absurd rfl (digit_ne (natChars_all_digits _ _ hm)).2.1
  have h2 : splitOnChar '_' (natChars e.range.start ++ '_' :: natChars e.range.stop)
      = [natChars e.range.start, natChars e.range.stop] := by
    rw [splitOnChar_append _ hus1, splitOnChar_not_mem hus2]
  unfold parseLine
  simp only [h1, h2, parseNat_natChars]

theorem splitOnChar_interBody : ∀ l : List IndexEntry, l ≠ [] →
    (∀ e ∈ l, ∀ c ∈ e.key, c ≠ '\n') →
    splitOnChar '\n' (interBody l) = l.map entryBody := by
  intro l
  induction l with
  | nil => intro h; exact absurd rfl h
  | cons e rest ih =>
    intro _ hk
    cases rest with
    | nil =>
      show splitOnChar '\n' (entryBody e) = [entryBody e]
      exact splitOnChar_not_mem (newline_not_mem_entryBody (hk e (by simp)))
    | cons r t =>
      show splitOnChar '\n' (entryBody e ++ '\n' :: interBody (r :: t))
          = entryBody e :: (r :: t).map entryBody
      rw [splitOnChar_append _ (newline_not_mem_entryBody (hk e (by simp)))]
      rw [ih (by simp) (fun x hx => hk x (List.mem_cons_of_mem _ hx))]

theorem parseLines_map_entryBody : ∀ l : List IndexEntry,
    (∀ e ∈ l, ∀ c ∈ e.key, c ≠ '=' ∧ c ≠ '_' ∧ c ≠ '\n') →
    parseLines (l.map entryBody) = some l := by
  intro l
  induction l with
  | nil => intro _; rfl
  | cons e rest ih =>
    intro hk
    show parseLines (entryBody e :: rest.map entryBody) = some (e :: rest)
    unfold parseLines
    rw [parseLine_entryBody (hk e (by simp)),
      ih (fun x hx => hk x (List.mem_cons_of_mem _ hx))]

/-- C6: serializing a directory whose keys contain none of the reserved
characters `=`, `_`, `\n` and reparsing it reproduces exactly the same
ordered entry sequence; the empty directory serializes to the empty string,
which parses back to the empty directory. -/
theorem serialization_roundtrip (l : List IndexEntry)
    (hk : ∀ e ∈ l, ∀ c ∈ e.key, c ≠ '=' ∧ c ≠ '_' ∧ c ≠ '\n') :
    parse_index (index_to_string l) = some l ∧
    index_to_string ([] : List IndexEntry) = [] ∧
    parse_index [] = some [] := by
  refine ⟨?_, rfl, rfl⟩
  cases l with
  | nil => rfl
  | cons e rest =>
    have hieq := index_to_string_eq_inter (e :: rest) (by simp)
    have hne : index_to_string (e :: rest) ≠ [] := by
      rw [hieq]
      simp
    obtain ⟨lc, hlast, hdig⟩ := interBody_getLast_digit (e :: rest) (by simp)
    unfold parse_index
    rw [if_neg hne, hieq, trimEnd_append_newline hlast (digit_not_wsp hdig)]
    rw [splitOnChar_interBody (e :: rest) (by simp)
      (fun x hx c hc => ((hk x hx) c hc).2.2)]
    exact parseLines_map_entryBody (e :: rest) hk

theorem serialization_roundtrip_witness :
    (∀ e ∈ idxW.entries, ∀ c ∈ e.key, c ≠ '=' ∧ c ≠ '_' ∧ c ≠ '\n') ∧
    (parse_index (index_to_string idxW.entries) = some idxW.entries ∧
      index_to_string ([] : List IndexEntry) = [] ∧
      parse_index [] = some []) :=
  ⟨by decide, serialization_roundtrip idxW.entries (by decide)⟩

/-- C8 counterexample: an I/O failure during `DataBase::insert` does not
propagate to the caller — `insert` terminates the process instead
(`OpOutcome.fatal` models the `.unwrap()` panic on the failed file access
inside `write_index`/`write_at`), so the claim that every Store operation
propagates I/O errors as recoverable errors is false. -/
theorem insert_io_error_terminates :
    DataBase.insertE true dbW ['b'] [9] = OpOutcome.fatal ∧
    OpOutcome.fatal ≠ (OpOutcome.err : OpOutcome DataBase) := by
  exact ⟨rfl, by simp⟩

/-- C8 amended: only `read_at` and `write_at` propagate I/O errors to their
caller (via `?`); `insert`, `get` (on a present key), `remove` (on a present
key), `clear_all` and `shrink` all `.unwrap()` their internal file accesses
and terminate the process on an I/O failure instead of returning it; `get`
and `remove` of an absent key perform no file access and succeed even under
a fault. -/
theorem io_error_propagation_amended :
    (∀ (db : DataBase) (start size : Nat), DataBase.read_atE true db start size = .err) ∧
    (∀ (db : DataBase) (start : Nat) (content : List Byte),
      DataBase.write_atE true db start content = .err) ∧
    (∀ (db : DataBase) (k : Key) (v : List Byte), DataBase.insertE true db k v = .fatal) ∧
    (∀ (db : DataBase) (k : Key),
      (db.index.get_entry k).isSome → DataBase.getE true db k = .fatal) ∧
    (∀ (db : DataBase) (k : Key),
      db.index.get_entry k = none → DataBase.getE true db k = .ok none) ∧
    (∀ (db : DataBase) (k : Key),
      (findKey k db.index.entries).isSome → DataBase.removeE true db k = .fatal) ∧
    (∀ (db : DataBase), DataBase.clear_allE true db = .fatal) ∧
    (∀ (db : DataBase), DataBase.shrinkE true db = .fatal) := by
  refine ⟨?_, ?_, ?_, ?_, ?_, ?_, ?_, ?_⟩
  · intro db start size
    rfl
  · intro db start content
    rfl
  · intro db k v
    rfl
  · intro db k hsome
    unfold DataBase.getE
    cases hg : db.index.get_entry k with
    | none => rw [hg] at hsome; cases hsome
    | some e => rfl
  · intro db k hnone
    unfold DataBase.getE
    rw [hnone]
  · intro db k hsome
    unfold DataBase.removeE Index.remove_entryE
    cases hf : findKey k db.index.entries with
    | none => rw [hf] at hsome; cases hsome
    | some p => rfl
  · intro db
    rfl
  · intro db
    rfl

theorem io_error_propagation_amended_witness :
    (dbW.index.get_entry ['a']).isSome ∧ DataBase.getE true dbW ['a'] = .fatal ∧
    (findKey ['a'] dbW.index.entries).isSome ∧ DataBase.removeE true dbW ['a'] = .fatal :=
  ⟨by decide, io_error_propagation_amended.2.2.2.1 dbW ['a'] (by decide), by decide,
    io_error_propagation_amended.2.2.2.2.2.1 dbW ['a'] (by decide)⟩

end MuDb
